import Mathlib

/-!
# Verification of the vibe-movie-podcast pipeline (src/main.py)

Shallow embedding of the pure orchestration logic of `main.py`:
title resolution, Wikipedia candidate titles and section walking,
trivia-bullet cleanup, script normalization, output-file-name
normalization, and the VibeVoice subprocess invocation with fallback.

Python strings are modelled as `List Char` (`PyStr`); Python string
methods are modelled by executable Lean functions over that type.
Line splitting is modelled on newline-separated text.
External collaborators (TMDb search results, the external-ids lookup,
the Wikipedia section tree, the language-model response, the subprocess
outcome) are opaque inputs passed to the embedded functions.
-/

namespace VibePodcast

/-- Python strings, modelled as lists of characters. -/
abbrev PyStr := List Char

/-- ASCII whitespace as recognised by Python's strip and the regex
class of whitespace characters (restricted to the ASCII range of the
model). -/
def pyIsSpace (c : Char) : Bool :=
  c = ' ' || c = '\t' || c = '\n' || c = '\r' || c = '\x0b' || c = '\x0c'

/-- Model of Python strip(): drop leading and trailing whitespace. -/
def pyStrip (s : PyStr) : PyStr :=
  ((s.dropWhile pyIsSpace).reverse.dropWhile pyIsSpace).reverse

/-- Model of Python lower() (ASCII case folding). -/
def pyLower (s : PyStr) : PyStr :=
  s.map Char.toLower

/-- Model of Python startswith. -/
def pyStartsWith (p s : PyStr) : Bool :=
  p.isPrefixOf s

/-- Split a text into lines at newline characters.
(Python splitlines additionally recognises carriage returns; the model
covers newline-separated text, which is what the pipeline produces and
consumes.) -/
def pyLines (s : PyStr) : List PyStr :=
  s.splitOn '\n'

/-- Join lines with newline characters. -/
def pyUnlines (ls : List PyStr) : PyStr :=
  List.intercalate ['\n'] ls

/-- Model of Python split-on-first-colon: the part before the first
colon and the remainder after it. -/
def pySplitFirstColon (s : PyStr) : PyStr × PyStr :=
  match s.splitOn ':' with
  | [] => (s, [])
  | x :: rest => (x, List.intercalate [':'] rest)

/-- Decimal rendering of a natural number, modelling Python str(n). -/
def natToChars (n : Nat) : PyStr :=
  Nat.toDigits 10 n

/-! ## Title Resolver (`resolve_to_imdb_id`, main.py lines 27-45) -/

/-- One TMDb search result, with the fields `resolve_to_imdb_id` reads:
the optional title, the numeric TMDb id, and the release-date string. -/
structure MovieResult where
  rtitle : Option PyStr
  mid : Nat
  release_date : PyStr
deriving DecidableEq

/-- The two failure modes of the resolver (both raised as ClickException;
the spec calls them NotFoundError). -/
inductive ResolveError : Type where
  | noResults : ResolveError
  | noImdbId : ResolveError
deriving DecidableEq

/-- The `if year:` filter step of `resolve_to_imdb_id` (lines 32-35).
The Python guard is truthiness: a year of 0, like None, does not trigger
the release-date filter. -/
def yearFiltered (year : Option Nat) (results : List MovieResult) :
    List MovieResult :=
  match year with
  | some y =>
      if y = 0 then results
      else results.filter fun r => (natToChars y).isPrefixOf r.release_date
  | none => results

/-- The `m.get("title") or title` fallback (falsy = None or empty). -/
def chosenTitle (title : PyStr) (m : MovieResult) : PyStr :=
  match m.rtitle with
  | some t => if t = [] then title else t
  | none => title

/-- `resolve_to_imdb_id(title, year)` over the search results returned by
the TMDb API and the external-ids lookup, both treated as opaque inputs. -/
def resolve_to_imdb_id (title : PyStr) (year : Option Nat)
    (results : List MovieResult) (external_ids : Nat → Option PyStr) :
    Except ResolveError (PyStr × PyStr) :=
  match yearFiltered year results with
  | [] => .error .noResults
  | m :: _ =>
    match external_ids m.mid with
    | none => .error .noImdbId
    | some imdb =>
        if imdb = [] then .error .noImdbId else .ok (imdb, chosenTitle title m)

/-- Sequencing of cli: the trivia fetch runs only when title resolution
succeeded (an exception aborts the run first). The Bool records whether
the fetch stage was invoked at all. -/
def resolveThenFetch {E A B : Type} (r : Except E A) (fetch : A → Except E B) :
    Bool × Except E B :=
  match r with
  | .error e => (false, .error e)
  | .ok a => (true, fetch a)

/-! ## Wikipedia candidate titles (`_wiki_candidate_titles`, lines 55-66) -/

/-- The dedupe loop of `_wiki_candidate_titles`: keep first occurrences,
tracking the set of already-seen entries. -/
def dedupeSeen (seen : List PyStr) : List PyStr → List PyStr
  | [] => []
  | c :: rest =>
    if c ∈ seen then dedupeSeen seen rest
    else c :: dedupeSeen (c :: seen) rest

/-- `_wiki_candidate_titles(title, year)`. The Python guard `if year:` is
truthiness: a year of 0 adds no year variant. -/
def wiki_candidate_titles (title : PyStr) (year : Option Nat) : List PyStr :=
  let cand :=
    [title] ++
      (match year with
       | some y =>
           if y = 0 then []
           else [title ++ " (".toList ++ natToChars y ++ " film)".toList]
       | none => []) ++
      [title ++ " (film)".toList]
  dedupeSeen [] cand

/-! ## Section walking (`_collect_relevant_sections`, lines 69-96) -/

/-- A Wikipedia section: title, body text, child sections. -/
inductive WikiSec : Type where
  | node : PyStr → PyStr → List WikiSec → WikiSec

/-- Title of a section. -/
def WikiSec.title : WikiSec → PyStr
  | node t _ _ => t

/-- Body text of a section. -/
def WikiSec.text : WikiSec → PyStr
  | node _ x _ => x

/-- Child sections of a section. -/
def WikiSec.children : WikiSec → List WikiSec
  | node _ _ cs => cs

/-- The fixed allow-list `keep` of section titles. -/
def keepTitles : List PyStr :=
  ["Production".toList, "Development".toList, "Pre-production".toList,
   "Casting".toList, "Filming".toList, "Post-production".toList,
   "Visual effects".toList, "Music".toList, "Release".toList,
   "Marketing".toList, "Reception".toList, "Box office".toList,
   "Accolades".toList, "Legacy".toList]

mutual

/-- The recursive `walk` of `_collect_relevant_sections`: emit the section
itself when its title is kept, then recurse into the children. -/
def walkSec : WikiSec → List PyStr
  | .node t x cs =>
      (if t ∈ keepTitles then [t ++ '\n' :: x] else []) ++ walkSecList cs

/-- `walk` applied to each section of a list in order. -/
def walkSecList : List WikiSec → List PyStr
  | [] => []
  | s :: rest => walkSec s ++ walkSecList rest

end

/-- `_collect_relevant_sections(page)`, over the page's section tree. -/
def collect_relevant_sections (secs : List WikiSec) : List PyStr :=
  walkSecList secs

/-- The chunk selection of `fetch_trivia_from_wikipedia` (lines 112-114):
fall back to the full page text when no section matched. -/
def trivia_chunks (secs : List WikiSec) (page_text : PyStr) : List PyStr :=
  let chunks := collect_relevant_sections secs
  if chunks = [] then [page_text] else chunks

mutual

/-- All sections of a tree in document (pre-order) order, as
(title, text) pairs: the section itself, then its children recursively. -/
def secPreorder : WikiSec → List (PyStr × PyStr)
  | .node t x cs => (t, x) :: secsPreorder cs

/-- Pre-order listing of a forest of sections. -/
def secsPreorder : List WikiSec → List (PyStr × PyStr)
  | [] => []
  | s :: rest => secPreorder s ++ secsPreorder rest

end

/-! ## Trivia-bullet cleanup (`fetch_trivia_from_wikipedia`, lines 131-138) -/

/-- Characters matched by the leading-bullet-marker regex class:
dash, asterisk, digit, dot, closing parenthesis, whitespace. -/
def isBulletMarker (c : Char) : Bool :=
  c = '-' || c = '*' || c.isDigit || c = '.' || c = ')' || pyIsSpace c

/-- Model of the whitespace-collapsing substitution: each maximal run of
whitespace becomes a single space. The Boolean state records whether the
previous character belonged to a whitespace run whose space has already
been emitted. -/
def collapseWsAux : Bool → PyStr → PyStr
  | _, [] => []
  | inRun, c :: rest =>
    if pyIsSpace c then
      if inRun then collapseWsAux true rest
      else ' ' :: collapseWsAux true rest
    else c :: collapseWsAux false rest

/-- Collapse each maximal whitespace run to a single space. -/
def collapseWs (s : PyStr) : PyStr :=
  collapseWsAux false s

/-- The per-line cleanup: strip the leading marker run, strip surrounding
whitespace, collapse internal whitespace. -/
def cleanBulletLine (line : PyStr) : PyStr :=
  collapseWs (pyStrip (line.dropWhile isBulletMarker))

/-- Greedy word fitting for the shortener: keep each word while it fits in
the remaining budget, spending one extra character for the separating
space before each later word. -/
def fitWords (budget : Nat) : List PyStr → List PyStr
  | [] => []
  | w :: ws =>
    if w.length ≤ budget then w :: fitWords (budget - w.length - 1) ws
    else []

/-- Words joined by single spaces. -/
def joinWords (ws : List PyStr) : PyStr :=
  List.intercalate [' '] ws

/-- Model of the textwrap shortener for text that is already
whitespace-collapsed and stripped: text within the width is returned
unchanged; otherwise whole words are kept greedily while, joined by
single spaces and followed by the placeholder, they fit in the width,
and the placeholder is appended; when not even the first word fits the
placeholder alone results. -/
def pyShorten (width : Nat) (ph t : PyStr) : PyStr :=
  if t.length ≤ width then t
  else
    match fitWords (width - ph.length) (t.splitOn ' ') with
    | [] => ph
    | ws => joinWords ws ++ ph

/-- One iteration of the bullet loop: clean the line, drop it when the
cleanup leaves nothing, otherwise append its shortened form. -/
def bulletStep (bullets : List PyStr) (line : PyStr) : List PyStr :=
  if cleanBulletLine line = [] then bullets
  else bullets ++ [pyShorten 320 ['…'] (cleanBulletLine line)]

/-- The bullet-parsing loop over the model response: clean each line, drop
the empty ones, shorten the survivors to 320 characters with an ellipsis
placeholder. -/
def parse_trivia_bullets (content : PyStr) : List PyStr :=
  (pyLines (pyStrip content)).foldl bulletStep []

/-- Whitespace is collapsed: no character other than a plain space is
whitespace. -/
def onlyPlainSpaces (s : PyStr) : Bool :=
  s.all fun c => !(pyIsSpace c) || c = ' '

/-- No two adjacent spaces. -/
def noDoubleSpace : PyStr → Bool
  | c :: d :: rest => !(c = ' ' && d = ' ') && noDoubleSpace (d :: rest)
  | _ => true

/-! ## Script Normalizer (`to_vibevoice_numbered_script`, lines 181-203) -/

/-- The lookup of the dict mapping lowered speaker names to numbers.
In a Python dict a later duplicate key overwrites an earlier one, hence the
second speaker is tested first. -/
def name_to_num (spkA spkB key : PyStr) : Option PyStr :=
  if key = pyLower spkB then some ['2']
  else if key = pyLower spkA then some ['1']
  else none

/-- Does the lowered line start with a canonical speaker tag. -/
def canonLine (line : PyStr) : Bool :=
  pyStartsWith ("speaker 1:".toList) (pyLower line) ||
  pyStartsWith ("speaker 2:".toList) (pyLower line)

/-- The colon branch of the loop: split on the first colon and look the
left part up among the two speaker names; `some` is the rewritten line,
`none` means the loop falls through to the alternation fallback. -/
def matchedLine (spkA spkB line : PyStr) : Option PyStr :=
  if line.contains ':' then
    match name_to_num spkA spkB (pyLower (pyStrip (pySplitFirstColon line).1)) with
    | some num =>
        some ("Speaker ".toList ++ num ++ ": ".toList ++ pyStrip (pySplitFirstColon line).2)
    | none => none
  else none

/-- State of the two-element itertools cycle after `n` next() calls:
the element yielded next. -/
def cycleNum (n : Nat) : PyStr :=
  if n % 2 = 0 then ['1'] else ['2']

/-- One iteration of the normalizer loop; the accumulator is
(out_lines, number of cycle steps consumed). -/
def vibeStep (spkA spkB : PyStr) (acc : List PyStr × Nat) (raw : PyStr) :
    List PyStr × Nat :=
  let line := pyStrip raw
  if line = [] then acc
  else if canonLine line then (acc.1 ++ [line], acc.2)
  else
    match matchedLine spkA spkB line with
    | some out => (acc.1 ++ [out], acc.2)
    | none =>
        (acc.1 ++ ["Speaker ".toList ++ cycleNum acc.2 ++ ": ".toList ++ line],
         acc.2 + 1)

/-- The out_lines list built by `to_vibevoice_numbered_script`. -/
def vibevoiceLines (spkA spkB script_text : PyStr) : List PyStr :=
  ((pyLines script_text).foldl (vibeStep spkA spkB) ([], 0)).1

/-- `to_vibevoice_numbered_script(script_text, speakers)` from main.py. -/
def to_vibevoice_numbered_script (script_text spkA spkB : PyStr) : PyStr :=
  pyUnlines (vibevoiceLines spkA spkB script_text)

/-- Specification-side recursion for the Normalizer, following the spec's
wording: blank lines are dropped; lines already carrying a canonical prefix
are kept; speaker-name lines are rewritten; all remaining (fallback) lines
receive the alternating number determined by the count `n` of fallback lines
seen so far, and only those lines advance the counter. -/
def numberedSpec (spkA spkB : PyStr) (n : Nat) : List PyStr → List PyStr
  | [] => []
  | raw :: rest =>
    let line := pyStrip raw
    if line = [] then numberedSpec spkA spkB n rest
    else if canonLine line then line :: numberedSpec spkA spkB n rest
    else
      match matchedLine spkA spkB line with
      | some out => out :: numberedSpec spkA spkB n rest
      | none =>
          ("Speaker ".toList ++ cycleNum n ++ ": ".toList ++ line) ::
            numberedSpec spkA spkB (n + 1) rest

/-- The non-blank lines of a script, stripped: exactly the lines that
produce an output line. -/
def nonblankLines (s : PyStr) : List PyStr :=
  ((pyLines s).map pyStrip).filter fun l => !l.isEmpty

/-! ## Synthesizer invocation (`run_vibevoice_once` / fallback, lines 231-274) -/

/-- A wav file in the VibeVoice output directory: name and mtime. -/
structure WavFile where
  name : PyStr
  mtime : Nat
deriving DecidableEq

/-- Result of one subprocess attempt: its exit code and the wav files
present in the output directory afterwards. -/
structure AttemptOutcome where
  exitCode : Nat
  wavs : List WavFile
deriving DecidableEq

/-- The two failure modes of one attempt: CalledProcessError from the
checked subprocess call, or the ClickException raised when no wav file is
found in the output directory. -/
inductive VVError : Type where
  | calledProcessError (code : Nat) : VVError
  | noWavFound : VVError
deriving DecidableEq

/-- Lexicographic name comparison, modelling the sort of the glob listing. -/
def strLeB : PyStr → PyStr → Bool
  | [], _ => true
  | _ :: _, [] => false
  | a :: as, b :: bs => if a < b then true else if b < a then false else strLeB as bs

/-- Insertion into a name-sorted list. -/
def insertByName (f : WavFile) : List WavFile → List WavFile
  | [] => [f]
  | g :: gs => if strLeB f.name g.name then f :: g :: gs else g :: insertByName f gs

/-- Name-sorted wav listing, modelling sorted(glob). -/
def sortByName : List WavFile → List WavFile
  | [] => []
  | f :: fs => insertByName f (sortByName fs)

/-- Python max with an mtime key: the first element of maximal mtime
(later elements replace the current one only on a strictly greater key). -/
def pyMaxMtime : List WavFile → Option WavFile
  | [] => none
  | x :: xs => some (xs.foldl (fun a y => if a.mtime < y.mtime then y else a) x)

/-- `run_vibevoice_once` (lines 231-258) as a function of the attempt
outcome: a non-zero exit raises CalledProcessError (check=True); otherwise
the sorted wav listing is scanned, an empty listing raises ClickException,
and the most recently modified file is the one copied to the final path
(returned here). -/
def run_vibevoice_once (o : AttemptOutcome) : Except VVError WavFile :=
  if o.exitCode ≠ 0 then .error (.calledProcessError o.exitCode)
  else
    match pyMaxMtime (sortByName o.wavs) with
    | none => .error .noWavFound
    | some latest => .ok latest

/-- `run_vibevoice_with_fallback` (lines 261-274): only CalledProcessError
from the primary attempt is caught; the fallback result or error is
returned unmodified; any other primary error propagates directly. -/
def run_vibevoice_with_fallback (primary fb : AttemptOutcome) :
    Except VVError WavFile :=
  match run_vibevoice_once primary with
  | .ok w => .ok w
  | .error (.calledProcessError _) => run_vibevoice_once fb
  | .error e => .error e

/-- Number of synthesis attempts (run_vibevoice_once invocations) made by
`run_vibevoice_with_fallback`; it depends only on the primary outcome. -/
def vibevoice_attempts (primary : AttemptOutcome) : Nat :=
  match run_vibevoice_once primary with
  | .error (.calledProcessError _) => 2
  | _ => 1

/-! ## Output file name (`normalize_outfile_name`, lines 320-331) and the
speaker validation of cli (lines 417-421) -/

/-- POSIX basename: the part after the last slash. -/
def pyBaseName (name : PyStr) : PyStr :=
  (name.splitOn '/').getLastD []

/-- The audio extensions the regex removes. -/
def audioExtensions : List PyStr :=
  [".wav".toList, ".mp3".toList, ".flac".toList, ".m4a".toList, ".ogg".toList]

/-- Case-insensitive removal of one trailing audio extension. -/
def stripAudioExtension (base : PyStr) : PyStr :=
  match audioExtensions.find? (fun e => e.isSuffixOf (pyLower base)) with
  | some e => base.take (base.length - e.length)
  | none => base

/-- `normalize_outfile_name(name)`: basename, strip, drop one audio
extension, default an empty base to "podcast", append ".wav".
Total: there is no failure path. -/
def normalize_outfile_name (name : PyStr) : PyStr :=
  let base := pyStrip (pyBaseName name)
  let base2 := stripAudioExtension base
  let base3 := if base2 = [] then "podcast".toList else base2
  base3 ++ ".wav".toList

/-- The only input-validation failure of cli's speaker handling. -/
inductive CliError : Type where
  | invalidSpeakerCount : CliError
deriving DecidableEq

/-- The --speakers validation of cli (lines 418-421): split on commas,
strip, drop empties, require exactly two. -/
def parse_speakers (speakers : PyStr) : Except CliError (List PyStr) :=
  let spk := ((speakers.splitOn ',').map pyStrip).filter fun s => !s.isEmpty
  if spk.length ≠ 2 then .error .invalidSpeakerCount else .ok spk

/-- The outfile branch of cli (lines 449-453): an empty --outfile falls
back to an interactive prompt (whose reply defaults to "podcast"); there
is no failure path. -/
def cli_outfile (outfile promptReply : PyStr) : PyStr :=
  if outfile = [] then normalize_outfile_name promptReply
  else normalize_outfile_name outfile

/-! ## Theorems -/

theorem toDigitsCore_shape (fuel n : Nat) (acc : List Char) :
    ∃ ds, Nat.toDigitsCore 10 fuel n acc = ds ++ acc := by
  induction fuel generalizing n acc with
  | zero => exact ⟨[], rfl⟩
  | succ f ih =>
    rw [Nat.toDigitsCore]
    split
    · exact ⟨[Nat.digitChar (n % 10)], rfl⟩
    · obtain ⟨ds, h⟩ := ih (n / 10) (Nat.digitChar (n % 10) :: acc)
      exact ⟨ds ++ [Nat.digitChar (n % 10)], by rw [h]; simp⟩

theorem natToChars_ne_nil (n : Nat) : natToChars n ≠ [] := by
  rw [natToChars, Nat.toDigits, Nat.toDigitsCore]
  split
  · simp
  · intro h
    obtain ⟨ds, hd⟩ := toDigitsCore_shape n (n / 10) [Nat.digitChar (n % 10)]
    rw [hd] at h
    simp at h

theorem foldl_vibeStep_eq (spkA spkB : PyStr) (ls : List PyStr) :
    ∀ (out : List PyStr) (n : Nat),
      (ls.foldl (vibeStep spkA spkB) (out, n)).1 = out ++ numberedSpec spkA spkB n ls := by
  induction ls with
  | nil => intro out n; simp [numberedSpec]
  | cons raw rest ih =>
    intro out n
    rw [List.foldl_cons]
    show (rest.foldl (vibeStep spkA spkB) (vibeStep spkA spkB (out, n) raw)).1 = _
    simp only [vibeStep, numberedSpec]
    by_cases h1 : pyStrip raw = []
    · simp only [h1, if_pos rfl]
      exact ih out n
    · simp only [if_neg h1]
      by_cases h2 : canonLine (pyStrip raw) = true
      · simp only [h2, if_pos rfl]
        rw [ih]
        simp
      · simp only [Bool.not_eq_true] at h2
        simp only [h2, Bool.false_eq_true, if_false]
        cases hm : matchedLine spkA spkB (pyStrip raw) with
        | some outl =>
          simp only [hm]
          rw [ih]
          simp
        | none =>
          simp only [hm]
          rw [ih]
          simp

theorem vibevoiceLines_eq_spec (spkA spkB s : PyStr) :
    vibevoiceLines spkA spkB s = numberedSpec spkA spkB 0 (pyLines s) := by
  rw [vibevoiceLines, foldl_vibeStep_eq]
  simp

/-! ### Synthesizer lemmas -/

theorem mem_insertByName (a f : WavFile) (l : List WavFile) :
    a ∈ insertByName f l ↔ a = f ∨ a ∈ l := by
  induction l with
  | nil => simp [insertByName]
  | cons g gs ih =>
    simp only [insertByName]
    split
    · simp only [List.mem_cons]
    · simp only [List.mem_cons, ih]
      tauto

theorem insertByName_ne_nil (f : WavFile) (l : List WavFile) :
    insertByName f l ≠ [] := by
  cases l with
  | nil => simp [insertByName]
  | cons g gs =>
    simp only [insertByName]
    split <;> simp

theorem mem_sortByName (a : WavFile) (l : List WavFile) :
    a ∈ sortByName l ↔ a ∈ l := by
  induction l with
  | nil => simp [sortByName]
  | cons f fs ih => simp [sortByName, mem_insertByName, ih]

theorem sortByName_eq_nil_iff (l : List WavFile) : sortByName l = [] ↔ l = [] := by
  cases l with
  | nil => simp [sortByName]
  | cons f fs =>
    simp only [sortByName]
    constructor
    · intro h
      exact absurd h (insertByName_ne_nil _ _)
    · intro h
      cases h

theorem pyMaxFold_spec (xs : List WavFile) : ∀ (a : WavFile),
    (xs.foldl (fun a y => if a.mtime < y.mtime then y else a) a = a ∨
      xs.foldl (fun a y => if a.mtime < y.mtime then y else a) a ∈ xs) ∧
    a.mtime ≤ (xs.foldl (fun a y => if a.mtime < y.mtime then y else a) a).mtime ∧
    ∀ v ∈ xs, v.mtime ≤ (xs.foldl (fun a y => if a.mtime < y.mtime then y else a) a).mtime := by
  induction xs with
  | nil => intro a; simp
  | cons x xs ih =>
    intro a
    simp only [List.foldl_cons]
    by_cases h : a.mtime < x.mtime
    · simp only [if_pos h]
      obtain ⟨m1, m2, m3⟩ := ih x
      refine ⟨?_, le_trans (le_of_lt h) m2, ?_⟩
      · rcases m1 with h1 | h1
        · right
          rw [h1]
          exact List.mem_cons_self x xs
        · right
          exact List.mem_cons_of_mem x h1
      · intro v hv
        rcases List.mem_cons.1 hv with rfl | hv
        · exact m2
        · exact m3 v hv
    · simp only [if_neg h]
      obtain ⟨m1, m2, m3⟩ := ih a
      refine ⟨m1.imp id (List.mem_cons_of_mem x), m2, ?_⟩
      intro v hv
      rcases List.mem_cons.1 hv with rfl | hv
      · exact le_trans (Nat.le_of_not_lt h) m2
      · exact m3 v hv

theorem run_once_eq (o : AttemptOutcome) :
    (o.exitCode ≠ 0 ∧ run_vibevoice_once o = .error (.calledProcessError o.exitCode)) ∨
    (o.exitCode = 0 ∧ o.wavs = [] ∧ run_vibevoice_once o = .error .noWavFound) ∨
    (o.exitCode = 0 ∧ ∃ w, run_vibevoice_once o = .ok w ∧ w ∈ o.wavs ∧
      ∀ v ∈ o.wavs, v.mtime ≤ w.mtime) := by
  by_cases he : o.exitCode = 0
  · right
    cases hsn : sortByName o.wavs with
    | nil =>
      left
      refine ⟨he, (sortByName_eq_nil_iff o.wavs).1 hsn, ?_⟩
      rw [run_vibevoice_once, if_neg (not_ne_iff.2 he), hsn]
      rfl
    | cons y ys =>
      right
      refine ⟨he, ?_⟩
      have hrun : run_vibevoice_once o =
          .ok (ys.foldl (fun a y => if a.mtime < y.mtime then y else a) y) := by
        rw [run_vibevoice_once, if_neg (not_ne_iff.2 he), hsn]
        rfl
      obtain ⟨m1, m2, m3⟩ := pyMaxFold_spec ys y
      refine ⟨_, hrun, ?_, ?_⟩
      · have hmem : ys.foldl (fun a y => if a.mtime < y.mtime then y else a) y ∈ y :: ys := by
          rcases m1 with h1 | h1
          · rw [h1]
            exact List.mem_cons_self y ys
          · exact List.mem_cons_of_mem y h1
        rw [← hsn] at hmem
        exact (mem_sortByName _ o.wavs).1 hmem
      · intro v hv
        have hv' : v ∈ y :: ys := by
          rw [← hsn]
          exact (mem_sortByName v o.wavs).2 hv
        rcases List.mem_cons.1 hv' with rfl | hv'
        · exact m2
        · exact m3 v hv'
  · left
    refine ⟨he, ?_⟩
    rw [run_vibevoice_once, if_pos he]

/-- C2: for every attempt outcome, the single-attempt synthesizer fails
exactly when the subprocess exits non-zero or no wav file is in the output
directory afterwards; on success the returned (copied) file is one of the
output files and its modification time is maximal among them. -/
theorem C2_run_once_contract (o : AttemptOutcome) :
    ((run_vibevoice_once o).isOk = false ↔ (o.exitCode ≠ 0 ∨ o.wavs = [])) ∧
    ∀ w : WavFile, run_vibevoice_once o = .ok w →
      w ∈ o.wavs ∧ ∀ v ∈ o.wavs, v.mtime ≤ w.mtime := by
  rcases run_once_eq o with ⟨he, hr⟩ | ⟨he, hw, hr⟩ | ⟨he, w0, hr, hmem, hmax⟩
  · constructor
    · rw [hr]
      simp [Except.isOk, Except.toBool, he]
    · intro w hok
      rw [hr] at hok
      cases hok
  · constructor
    · rw [hr]
      simp [Except.isOk, Except.toBool, hw]
    · intro w hok
      rw [hr] at hok
      cases hok
  · have hnn : o.wavs ≠ [] := by
      intro h
      rw [h] at hmem
      cases hmem
    constructor
    · rw [hr]
      simp [Except.isOk, Except.toBool, he, hnn]
    · intro w hok
      rw [hr] at hok
      injection hok with h
      subst h
      exact ⟨hmem, hmax⟩

/-- C2 witness: at a concrete successful outcome, the contract picks the
most recently modified wav. -/
theorem C2_run_once_contract_witness :
    (⟨"b.wav".toList, 5⟩ : WavFile) ∈
        [(⟨"a.wav".toList, 1⟩ : WavFile), ⟨"b.wav".toList, 5⟩] ∧
    ∀ v ∈ [(⟨"a.wav".toList, 1⟩ : WavFile), ⟨"b.wav".toList, 5⟩],
      v.mtime ≤ (⟨"b.wav".toList, 5⟩ : WavFile).mtime :=
  (C2_run_once_contract ⟨0, [⟨"a.wav".toList, 1⟩, ⟨"b.wav".toList, 5⟩]⟩).2
    ⟨"b.wav".toList, 5⟩ rfl

/-- C1 counterexample: with exit code 0 and no wav produced, the primary
attempt fails, yet no fallback attempt is made (one attempt in total) and
the primary's missing-output error is surfaced, even though the fallback
would have succeeded; this contradicts the claim that every failure edge
out of the first attempt leads to a fallback attempt. -/
theorem C1_counterexample :
    (run_vibevoice_once ⟨0, []⟩).isOk = false ∧
    vibevoice_attempts ⟨0, []⟩ = 1 ∧
    run_vibevoice_with_fallback ⟨0, []⟩ ⟨0, [⟨"a.wav".toList, 1⟩]⟩ = .error .noWavFound ∧
    (run_vibevoice_once ⟨0, [⟨"a.wav".toList, 1⟩]⟩).isOk = true :=
  ⟨rfl, rfl, rfl, rfl⟩

/-- C1 amended: when the primary attempt fails with a non-zero subprocess
exit, exactly one fallback attempt is made and its result or failure is
returned unmodified; when the primary attempt fails because no wav file
was found, that error propagates with no fallback attempt; no third
attempt is ever made. -/
theorem C1_fallback_amended (p f : AttemptOutcome) :
    (p.exitCode ≠ 0 →
      run_vibevoice_with_fallback p f = run_vibevoice_once f ∧
      vibevoice_attempts p = 2) ∧
    (run_vibevoice_once p = .error .noWavFound →
      run_vibevoice_with_fallback p f = .error .noWavFound ∧
      vibevoice_attempts p = 1) ∧
    vibevoice_attempts p ≤ 2 := by
  refine ⟨?_, ?_, ?_⟩
  · intro he
    have hp : run_vibevoice_once p = .error (.calledProcessError p.exitCode) := by
      rw [run_vibevoice_once, if_pos he]
    rw [run_vibevoice_with_fallback, vibevoice_attempts, hp]
    exact ⟨rfl, rfl⟩
  · intro he
    rw [run_vibevoice_with_fallback, vibevoice_attempts, he]
    exact ⟨rfl, rfl⟩
  · rw [vibevoice_attempts]
    split <;> omega

/-- C1 amended witness: concrete runs of both fallback-relevant branches. -/
theorem C1_fallback_amended_witness :
    (run_vibevoice_with_fallback ⟨1, []⟩ ⟨0, [⟨"a.wav".toList, 1⟩]⟩ =
        run_vibevoice_once ⟨0, [⟨"a.wav".toList, 1⟩]⟩ ∧
      vibevoice_attempts ⟨1, []⟩ = 2) ∧
    (run_vibevoice_with_fallback ⟨0, []⟩ ⟨7, []⟩ = .error .noWavFound ∧
      vibevoice_attempts ⟨0, []⟩ = 1) :=
  ⟨(C1_fallback_amended ⟨1, []⟩ ⟨0, [⟨"a.wav".toList, 1⟩]⟩).1 (by decide),
    (C1_fallback_amended ⟨0, []⟩ ⟨7, []⟩).2.1 rfl⟩

/-! ### Candidate-title lemmas -/

theorem dedupeSeen_eq_self (l : List PyStr) : ∀ (seen : List PyStr), l.Nodup →
    (∀ x ∈ l, x ∉ seen) → dedupeSeen seen l = l := by
  induction l with
  | nil => intro seen _ _; rfl
  | cons c rest ih =>
    intro seen hnd hdisj
    rw [dedupeSeen, if_neg (hdisj c (List.mem_cons_self c rest))]
    congr 1
    apply ih
    · exact (List.nodup_cons.1 hnd).2
    · intro x hx
      simp only [List.mem_cons, not_or]
      constructor
      · intro hxc
        exact (List.nodup_cons.1 hnd).1 (hxc ▸ hx)
      · exact hdisj x (List.mem_cons_of_mem c hx)

/-- C5 counterexample: with the year 0 (a given year), the year variant is
missing from the candidate list, because the Python truthiness guard
treats 0 like None. -/
theorem C5_counterexample :
    wiki_candidate_titles "Inception".toList (some 0) =
      ["Inception".toList, "Inception (film)".toList] ∧
    "Inception (0 film)".toList ∉ wiki_candidate_titles "Inception".toList (some 0) :=
  ⟨rfl, by decide⟩

/-- C5 amended: the candidate list is exactly the plain title, then the
year variant when a nonzero year is given (Python truthiness), then the
film variant; it has no duplicates and starts with the plain title. -/
theorem C5_candidates_amended (title : PyStr) (year : Option Nat) :
    wiki_candidate_titles title year =
      [title] ++
        (match year with
         | some y =>
             if y = 0 then []
             else [title ++ " (".toList ++ natToChars y ++ " film)".toList]
         | none => []) ++
      [title ++ " (film)".toList] ∧
    (wiki_candidate_titles title year).Nodup ∧
    (wiki_candidate_titles title year).head? = some title := by
  have e1 : (" (".toList : List Char).length = 2 := rfl
  have e2 : (" film)".toList : List Char).length = 6 := rfl
  have e3 : (" (film)".toList : List Char).length = 7 := rfl
  have hlen1 : title ≠ title ++ " (film)".toList := by
    intro h
    have := congrArg List.length h
    simp only [List.length_append, e3] at this
    omega
  have hEq : wiki_candidate_titles title year =
      [title] ++
        (match year with
         | some y =>
             if y = 0 then []
             else [title ++ " (".toList ++ natToChars y ++ " film)".toList]
         | none => []) ++
      [title ++ " (film)".toList] := by
    rcases year with _ | y
    · rw [wiki_candidate_titles]
      exact dedupeSeen_eq_self _ [] (by simp [List.nodup_cons, hlen1]) (by simp)
    · by_cases hy : y = 0
      · subst hy
        rw [wiki_candidate_titles]
        simp only [if_pos rfl]
        exact dedupeSeen_eq_self _ [] (by simp [List.nodup_cons, hlen1]) (by simp)
      · have hd := List.length_pos.2 (natToChars_ne_nil y)
        have h1 : title ≠ title ++ " (".toList ++ natToChars y ++ " film)".toList := by
          intro h
          have := congrArg List.length h
          simp only [List.length_append, e1, e2] at this
          omega
        have h2 : title ++ " (".toList ++ natToChars y ++ " film)".toList ≠
            title ++ " (film)".toList := by
          intro h
          have := congrArg List.length h
          simp only [List.length_append, e1, e2, e3] at this
          omega
        have h3 : natToChars y ++ [' ', 'f', 'i', 'l', 'm', ')'] ≠
            ['f', 'i', 'l', 'm', ')'] := by
          intro h
          have := congrArg List.length h
          simp only [List.length_append, List.length_cons] at this
          omega
        rw [wiki_candidate_titles]
        simp only [if_neg hy]
        exact dedupeSeen_eq_self _ []
          (by simp [List.nodup_cons, hlen1, h1, h2, h3]) (by simp)
  refine ⟨hEq, ?_, ?_⟩
  · rw [hEq]
    rcases year with _ | y
    · simp [List.nodup_cons, hlen1]
    · by_cases hy : y = 0
      · subst hy
        simp [List.nodup_cons, hlen1]
      · have hd := List.length_pos.2 (natToChars_ne_nil y)
        have h1 : title ≠ title ++ " (".toList ++ natToChars y ++ " film)".toList := by
          intro h
          have := congrArg List.length h
          simp only [List.length_append, e1, e2] at this
          omega
        have h2 : title ++ " (".toList ++ natToChars y ++ " film)".toList ≠
            title ++ " (film)".toList := by
          intro h
          have := congrArg List.length h
          simp only [List.length_append, e1, e2, e3] at this
          omega
        have h3 : natToChars y ++ [' ', 'f', 'i', 'l', 'm', ')'] ≠
            ['f', 'i', 'l', 'm', ')'] := by
          intro h
          have := congrArg List.length h
          simp only [List.length_append, List.length_cons] at this
          omega
        simp [List.nodup_cons, hlen1, h1, h2, h3, hy]
  · rw [hEq]
    rfl

/-! ### Section-walk lemmas -/

mutual

theorem walkSec_eq_filter : ∀ (s : WikiSec),
    walkSec s =
      ((secPreorder s).filter fun p => decide (p.1 ∈ keepTitles)).map
        fun p => p.1 ++ '\n' :: p.2
  | .node t x cs => by
    rw [walkSec, secPreorder, walkSecList_eq_filter cs]
    by_cases h : t ∈ keepTitles
    · simp [h]
    · simp [h]

theorem walkSecList_eq_filter : ∀ (ss : List WikiSec),
    walkSecList ss =
      ((secsPreorder ss).filter fun p => decide (p.1 ∈ keepTitles)).map
        fun p => p.1 ++ '\n' :: p.2
  | [] => by rw [walkSecList, secsPreorder]; rfl
  | s :: rest => by
    rw [walkSecList, secsPreorder, walkSec_eq_filter s, walkSecList_eq_filter rest]
    simp

end

/-- C6: the section walk collects exactly the sections, at any depth,
whose title is in the allow-list, in document (pre-order) order, each
rendered as its title, a newline and its body text; when no section
matched, the full page text is the single chunk, and otherwise the
collected chunks are used as they are. -/
theorem C6_section_walk (secs : List WikiSec) (page_text : PyStr) :
    collect_relevant_sections secs =
      ((secsPreorder secs).filter fun p => decide (p.1 ∈ keepTitles)).map
        (fun p => p.1 ++ '\n' :: p.2) ∧
    (collect_relevant_sections secs = [] →
      trivia_chunks secs page_text = [page_text]) ∧
    (collect_relevant_sections secs ≠ [] →
      trivia_chunks secs page_text = collect_relevant_sections secs) := by
  refine ⟨walkSecList_eq_filter secs, ?_, ?_⟩
  · intro h
    simp [trivia_chunks, h]
  · intro h
    simp [trivia_chunks, h]

/-- C6 witness: a page with only a disallowed section falls back to the
full page text; a page with an allow-listed section keeps its chunks. -/
theorem C6_section_walk_witness :
    trivia_chunks [WikiSec.node "Plot".toList "p".toList []] "full".toList =
      ["full".toList] ∧
    trivia_chunks [WikiSec.node "Music".toList "m".toList []] "full".toList =
      collect_relevant_sections [WikiSec.node "Music".toList "m".toList []] :=
  ⟨(C6_section_walk _ _).2.1 rfl, (C6_section_walk _ _).2.2 (by decide)⟩

/-! ### Resolver theorems -/

/-- C8 counterexample: with year 0 given, results are not filtered by
release date: a result whose release date does not start with the year's
decimal rendering is still chosen and resolution succeeds, where the
claim requires it to be filtered out and a NotFoundError raised. -/
theorem C8_counterexample :
    (natToChars 0).isPrefixOf ("1999-01-01".toList) = false ∧
    resolve_to_imdb_id "X".toList (some 0)
        [⟨some "T".toList, 7, "1999-01-01".toList⟩]
        (fun _ => some "tt1".toList) = .ok ("tt1".toList, "T".toList) :=
  ⟨rfl, rfl⟩

/-- C8 amended: results are filtered by release-date prefix exactly for a
nonzero given year (Python truthiness); the first remaining result is
taken with no further ranking; resolution fails exactly when no results
remain or the chosen match lacks a non-empty IMDb id; and when no results
remain the trivia-fetch stage is never invoked. -/
theorem C8_resolver_amended (title : PyStr) (year : Option Nat)
    (results : List MovieResult) (ext : Nat → Option PyStr)
    (fetch : PyStr × PyStr → Except ResolveError (List PyStr)) :
    (∀ y, year = some y → y ≠ 0 →
      yearFiltered year results =
        results.filter fun r => (natToChars y).isPrefixOf r.release_date) ∧
    (yearFiltered year results = [] →
      resolve_to_imdb_id title year results ext = .error .noResults ∧
      (resolveThenFetch (resolve_to_imdb_id title year results ext) fetch).1 = false) ∧
    (∀ m rest, yearFiltered year results = m :: rest →
      (∀ imdb, ext m.mid = some imdb → imdb ≠ [] →
        resolve_to_imdb_id title year results ext = .ok (imdb, chosenTitle title m)) ∧
      ((ext m.mid = none ∨ ext m.mid = some []) →
        resolve_to_imdb_id title year results ext = .error .noImdbId)) ∧
    ((resolve_to_imdb_id title year results ext).isOk = false ↔
      yearFiltered year results = [] ∨
      ∃ m rest, yearFiltered year results = m :: rest ∧
        (ext m.mid = none ∨ ext m.mid = some [])) := by
  refine ⟨?_, ?_, ?_, ?_⟩
  · intro y hy hy0
    subst hy
    simp [yearFiltered, hy0]
  · intro h
    have hr : resolve_to_imdb_id title year results ext = .error .noResults := by
      rw [resolve_to_imdb_id, h]
    exact ⟨hr, by rw [hr]; rfl⟩
  · intro m rest h
    constructor
    · intro imdb hext hne
      rw [resolve_to_imdb_id, h]
      simp only [hext]
      rw [if_neg hne]
    · rintro (hext | hext) <;>
        · rw [resolve_to_imdb_id, h]
          simp [hext]
  · cases hf : yearFiltered year results with
    | nil =>
      have hr : resolve_to_imdb_id title year results ext = .error .noResults := by
        rw [resolve_to_imdb_id, hf]
      rw [hr]
      simp [Except.isOk, Except.toBool]
    | cons m rest =>
      cases hext : ext m.mid with
      | none =>
        have hr : resolve_to_imdb_id title year results ext = .error .noImdbId := by
          rw [resolve_to_imdb_id, hf]
          simp [hext]
        rw [hr]
        constructor
        · intro _
          exact Or.inr ⟨m, rest, rfl, Or.inl hext⟩
        · intro _
          rfl
      | some imdb =>
        by_cases hni : imdb = []
        · subst hni
          have hr : resolve_to_imdb_id title year results ext = .error .noImdbId := by
            rw [resolve_to_imdb_id, hf]
            simp [hext]
          rw [hr]
          constructor
          · intro _
            exact Or.inr ⟨m, rest, rfl, Or.inr hext⟩
          · intro _
            rfl
        · have hr : resolve_to_imdb_id title year results ext =
              .ok (imdb, chosenTitle title m) := by
            rw [resolve_to_imdb_id, hf]
            simp [hext, hni]
          rw [hr]
          constructor
          · intro h'
            simp [Except.isOk, Except.toBool] at h'
          · rintro (hnil | ⟨m', rest', hmr, hbad⟩)
            · cases hnil
            · injection hmr with h1 h2
              subst h1
              rcases hbad with hb | hb <;> rw [hext] at hb
              · cases hb
              · injection hb with hb2
                exact absurd hb2 hni

/-- C8 amended witness: a concrete nonzero-year resolution in which the
filter keeps one result and its IMDb id is returned, and a concrete
empty-results run that never reaches the fetch stage. -/
theorem C8_resolver_amended_witness :
    (yearFiltered (some 1999)
        [⟨some "T".toList, 7, "1999-05-01".toList⟩, ⟨none, 8, "2000-01-01".toList⟩] =
      [⟨some "T".toList, 7, "1999-05-01".toList⟩]) ∧
    (resolve_to_imdb_id "X".toList (some 1999)
        [⟨some "T".toList, 7, "1999-05-01".toList⟩, ⟨none, 8, "2000-01-01".toList⟩]
        (fun i => if i = 7 then some "tt7".toList else none) =
      .ok ("tt7".toList, "T".toList)) ∧
    (resolveThenFetch
        (resolve_to_imdb_id "X".toList none [] (fun _ => none))
        (fun _ => (.ok [] : Except ResolveError (List PyStr)))).1 = false := by
  refine ⟨?_, ?_, ?_⟩
  · have := (C8_resolver_amended "X".toList (some 1999)
      [⟨some "T".toList, 7, "1999-05-01".toList⟩, ⟨none, 8, "2000-01-01".toList⟩]
      (fun i => if i = 7 then some "tt7".toList else none)
      (fun _ => (.ok [] : Except ResolveError (List PyStr)))).1
      1999 rfl (by decide)
    rw [this]
    rfl
  · exact ((C8_resolver_amended "X".toList (some 1999)
      [⟨some "T".toList, 7, "1999-05-01".toList⟩, ⟨none, 8, "2000-01-01".toList⟩]
      (fun i => if i = 7 then some "tt7".toList else none)
      (fun _ => (.ok [] : Except ResolveError (List PyStr)))).2.2.1
      ⟨some "T".toList, 7, "1999-05-01".toList⟩ [] rfl).1
      "tt7".toList rfl (by decide)
  · exact ((C8_resolver_amended "X".toList none [] (fun _ => none)
      (fun _ => (.ok [] : Except ResolveError (List PyStr)))).2.1 rfl).2

/-! ### Output-file-name theorems -/

/-- C9 counterexample: an empty output name does not fail; it yields the
default name, both in normalize_outfile_name and through the cli branch
(whose prompt default is the same base name). -/
theorem C9_counterexample :
    normalize_outfile_name [] = "podcast.wav".toList ∧
    cli_outfile [] "podcast".toList = "podcast.wav".toList :=
  ⟨rfl, rfl⟩

/-- C9 amended: an output name whose stripped basename is empty is
replaced by the default base (yielding podcast.wav) rather than failing;
the speaker validation fails exactly when the comma-split, stripped,
non-empty speaker list does not have exactly two entries. -/
theorem C9_outfile_amended (name spk : PyStr) :
    (pyStrip (pyBaseName name) = [] →
      normalize_outfile_name name = "podcast.wav".toList) ∧
    ((parse_speakers spk).isOk = false ↔
      (((spk.splitOn ',').map pyStrip).filter fun s => !s.isEmpty).length ≠ 2) := by
  constructor
  · intro h
    simp only [normalize_outfile_name, h]
    rfl
  · by_cases h : (((spk.splitOn ',').map pyStrip).filter fun s => !s.isEmpty).length = 2
    · simp [parse_speakers, h, Except.isOk, Except.toBool]
    · simp [parse_speakers, h, Except.isOk, Except.toBool]

/-- C9 amended witness: a blank path-only name becomes podcast.wav; a
three-name speaker string is rejected. -/
theorem C9_outfile_amended_witness :
    normalize_outfile_name " / ".toList = "podcast.wav".toList ∧
    ((parse_speakers "a,b,c".toList).isOk = false ↔
      ((("a,b,c".toList.splitOn ',').map pyStrip).filter fun s => !s.isEmpty).length ≠ 2) :=
  ⟨(C9_outfile_amended " / ".toList [] ).1 rfl,
    (C9_outfile_amended " / ".toList "a,b,c".toList).2⟩

/-! ### Character and whitespace lemmas -/

theorem char_eq_iff_toNat (c d : Char) : c = d ↔ c.toNat = d.toNat := by
  constructor
  · intro h
    rw [h]
  · intro h
    have h2 := congrArg Char.ofNat h
    rwa [Char.ofNat_toNat, Char.ofNat_toNat] at h2

theorem pyIsSpace_iff (c : Char) :
    pyIsSpace c = true ↔
      (c.toNat = 32 ∨ c.toNat = 9 ∨ c.toNat = 10 ∨ c.toNat = 13 ∨
        c.toNat = 11 ∨ c.toNat = 12) := by
  have e1 : (' ' : Char).toNat = 32 := rfl
  have e2 : ('\t' : Char).toNat = 9 := rfl
  have e3 : ('\n' : Char).toNat = 10 := rfl
  have e4 : ('\r' : Char).toNat = 13 := rfl
  have e5 : ('\x0b' : Char).toNat = 11 := rfl
  have e6 : ('\x0c' : Char).toNat = 12 := rfl
  simp only [pyIsSpace, Bool.or_eq_true, decide_eq_true_eq, char_eq_iff_toNat,
    e1, e2, e3, e4, e5, e6]
  tauto

theorem pyIsSpace_toLower (c : Char) : pyIsSpace c.toLower = pyIsSpace c := by
  simp only [Char.toLower]
  split
  · next h =>
    obtain ⟨h1, h2⟩ := h
    have hval : (c.toNat + 32).isValidChar := Or.inl (by omega)
    have hv : (Char.ofNat (c.toNat + 32)).toNat = c.toNat + 32 := by
      rw [Char.ofNat, dif_pos hval]
      rfl
    have lhs : pyIsSpace (Char.ofNat (c.toNat + 32)) = false := by
      cases hb : pyIsSpace (Char.ofNat (c.toNat + 32))
      · rfl
      · have h3 := (pyIsSpace_iff _).1 hb
        rw [hv] at h3
        omega
    have rhs : pyIsSpace c = false := by
      cases hb : pyIsSpace c
      · rfl
      · have h3 := (pyIsSpace_iff _).1 hb
        omega
    rw [lhs, rhs]
  · rfl

/-! ### Strip lemmas -/

theorem dropWhile_head_not {p : Char → Bool} {l : PyStr} {a : Char}
    (h : (l.dropWhile p).head? = some a) : p a = false := by
  have h2 := List.head?_dropWhile_not p l
  rw [h] at h2
  exact h2

theorem dropWhile_eq_self_of_head {p : Char → Bool} {l : PyStr}
    (h : ∀ a, l.head? = some a → p a = false) : l.dropWhile p = l := by
  cases l with
  | nil => rfl
  | cons a t => exact List.dropWhile_cons_of_neg (by simp [h a rfl])

theorem getLast?_of_suffix {l₁ l₂ : PyStr} (h : l₁ <:+ l₂) (hne : l₁ ≠ []) :
    l₂.getLast? = l₁.getLast? := by
  obtain ⟨pre, rfl⟩ := h
  rw [List.getLast?_append]
  cases hl : l₁.getLast? with
  | none => exact absurd (List.getLast?_eq_none_iff.1 hl) hne
  | some b => rfl

theorem pyStrip_head_not_space {l : PyStr} {a : Char}
    (h : (pyStrip l).head? = some a) : pyIsSpace a = false := by
  rw [pyStrip, List.head?_reverse] at h
  have hvne : (l.dropWhile pyIsSpace).reverse.dropWhile pyIsSpace ≠ [] := by
    intro hnil
    rw [hnil] at h
    cases h
  have hgl := getLast?_of_suffix
    (List.dropWhile_suffix (l := (l.dropWhile pyIsSpace).reverse) pyIsSpace) hvne
  rw [← hgl, List.getLast?_reverse] at h
  exact dropWhile_head_not h

theorem pyStrip_getLast_not_space {l : PyStr} {b : Char}
    (h : (pyStrip l).getLast? = some b) : pyIsSpace b = false := by
  rw [pyStrip, List.getLast?_reverse] at h
  exact dropWhile_head_not h

theorem pyStrip_idem (l : PyStr) : pyStrip (pyStrip l) = pyStrip l := by
  cases hr : pyStrip l with
  | nil => rfl
  | cons a t =>
    rw [pyStrip]
    have h1 : (a :: t).dropWhile pyIsSpace = a :: t := by
      apply dropWhile_eq_self_of_head
      intro x hx
      injection hx with hx1
      subst hx1
      apply pyStrip_head_not_space (l := l)
      rw [hr]
      rfl
    rw [h1]
    have h2 : (a :: t).reverse.dropWhile pyIsSpace = (a :: t).reverse := by
      apply dropWhile_eq_self_of_head
      intro x hx
      rw [List.head?_reverse] at hx
      apply pyStrip_getLast_not_space (l := l)
      rw [hr]
      exact hx
    rw [h2, List.reverse_reverse]

theorem mem_pyStrip {l : PyStr} {c : Char} (h : c ∈ pyStrip l) : c ∈ l := by
  rw [pyStrip, List.mem_reverse] at h
  have h2 := (List.dropWhile_sublist
    (l := (l.dropWhile pyIsSpace).reverse) pyIsSpace).subset h
  rw [List.mem_reverse] at h2
  exact (List.dropWhile_sublist pyIsSpace).subset h2

/-! ### splitOn and intersperse lemmas -/

theorem splitOnP_pieces_not {p : Char → Bool} :
    ∀ (l : PyStr), ∀ piece ∈ l.splitOnP p, ∀ c ∈ piece, p c = false := by
  intro l
  induction l with
  | nil =>
    intro piece hp c hc
    rw [List.splitOnP_nil] at hp
    simp only [List.mem_singleton] at hp
    subst hp
    cases hc
  | cons a xs ih =>
    intro piece hp c hc
    rw [List.splitOnP_cons] at hp
    by_cases ha : p a = true
    · rw [if_pos ha] at hp
      rcases List.mem_cons.1 hp with rfl | hp
      · cases hc
      · exact ih piece hp c hc
    · rw [if_neg ha] at hp
      cases hsp : xs.splitOnP p with
      | nil => exact absurd hsp (List.splitOnP_ne_nil p xs)
      | cons hd tl =>
        rw [hsp, List.modifyHead_cons] at hp
        rcases List.mem_cons.1 hp with rfl | hp
        · rcases List.mem_cons.1 hc with rfl | hc
          · simpa using ha
          · exact ih hd (by rw [hsp]; exact List.mem_cons_self hd tl) c hc
        · exact ih piece (by rw [hsp]; exact List.mem_cons_of_mem hd hp) c hc

theorem splitOn_pieces_not_mem {a : Char} (l : PyStr) :
    ∀ piece ∈ l.splitOn a, a ∉ piece := by
  intro piece hp ha
  rw [List.splitOn] at hp
  have := splitOnP_pieces_not l piece hp a ha
  simp at this

theorem mem_intersperse_of_mem {α : Type} (sep : α) :
    ∀ {xs : List α} {x : α}, x ∈ xs → x ∈ xs.intersperse sep := by
  intro xs
  induction xs with
  | nil =>
    intro x hx
    cases hx
  | cons a t ih =>
    intro x hx
    cases t with
    | nil => simpa using hx
    | cons b u =>
      rw [List.intersperse_cons₂]
      rcases List.mem_cons.1 hx with rfl | hx
      · exact List.mem_cons_self _ _
      · exact List.mem_cons_of_mem _ (List.mem_cons_of_mem _ (ih hx))

theorem mem_of_mem_intersperse {α : Type} {sep : α} :
    ∀ {xs : List α} {x : α}, x ∈ xs.intersperse sep → x ∈ xs ∨ x = sep := by
  intro xs
  induction xs with
  | nil =>
    intro x hx
    cases hx
  | cons a t ih =>
    intro x hx
    cases t with
    | nil =>
      simp only [List.intersperse_singleton] at hx
      exact Or.inl hx
    | cons b u =>
      rw [List.intersperse_cons₂] at hx
      rcases List.mem_cons.1 hx with rfl | hx
      · exact Or.inl (List.mem_cons_self _ _)
      · rcases List.mem_cons.1 hx with rfl | hx
        · exact Or.inr rfl
        · rcases ih hx with h | h
          · exact Or.inl (List.mem_cons_of_mem _ h)
          · exact Or.inr h

theorem mem_of_mem_splitOn {a c : Char} {l piece : PyStr}
    (hp : piece ∈ l.splitOn a) (hc : c ∈ piece) : c ∈ l := by
  have hm : c ∈ List.intercalate [a] (l.splitOn a) := by
    rw [List.intercalate]
    exact List.mem_flatten.2 ⟨piece, mem_intersperse_of_mem [a] hp, hc⟩
  rwa [List.intercalate_splitOn] at hm

theorem mem_pySplitFirstColon_right {l : PyStr} {c : Char}
    (h : c ∈ (pySplitFirstColon l).2) : c ∈ l ∨ c = ':' := by
  rw [pySplitFirstColon] at h
  cases hsp : l.splitOn ':' with
  | nil =>
    rw [List.splitOn] at hsp
    exact absurd hsp (List.splitOnP_ne_nil _ l)
  | cons x rest =>
    rw [hsp] at h
    simp only at h
    rw [List.intercalate] at h
    obtain ⟨piece, hpi, hcp⟩ := List.mem_flatten.1 h
    rcases mem_of_mem_intersperse hpi with hpr | rfl
    · exact Or.inl (mem_of_mem_splitOn
        (by rw [hsp]; exact List.mem_cons_of_mem x hpr) hcp)
    · right
      simpa using hcp

theorem pyLines_no_newline (s : PyStr) : ∀ l ∈ pyLines s, '\n' ∉ l := by
  intro l hl
  exact fun hn => splitOn_pieces_not_mem s l hl hn

/-! ### Normalizer lemmas -/

theorem pyStartsWith_iff {p s : PyStr} : pyStartsWith p s = true ↔ p <+: s := by
  rw [pyStartsWith]
  exact List.isPrefixOf_iff_prefix

theorem canonLine_ne_nil {l : PyStr} (h : canonLine l = true) : l ≠ [] := by
  intro hl
  rw [hl] at h
  exact absurd h (by decide)

theorem startsWith_pyStrip {p l : PyStr} (hp : p ≠ [])
    (hp1 : ∀ c, p.head? = some c → pyIsSpace c = false)
    (hp2 : ∀ c, p.getLast? = some c → pyIsSpace c = false)
    (h : pyStartsWith p (pyLower l) = true) :
    pyStartsWith p (pyLower (pyStrip l)) = true := by
  rw [pyStartsWith_iff] at h ⊢
  obtain ⟨m, hm⟩ := h
  obtain ⟨s, t, rfl, hs, ht⟩ := List.map_eq_append_iff.1 hm.symm
  obtain ⟨a, s', rfl⟩ : ∃ a s', s = a :: s' := by
    cases s with
    | nil =>
      rw [List.map_nil] at hs
      exact absurd hs.symm hp
    | cons a s' => exact ⟨a, s', rfl⟩
  have hhead : pyIsSpace a = false := by
    have h1 : p.head? = some (Char.toLower a) := by
      rw [← hs]
      rfl
    have h2 := hp1 _ h1
    rwa [pyIsSpace_toLower] at h2
  have hlast : ∀ x, (a :: s').getLast? = some x → pyIsSpace x = false := by
    intro x hx
    have h1 : p.getLast? = some (Char.toLower x) := by
      rw [← hs, List.getLast?_map, hx]
      rfl
    have h2 := hp2 _ h1
    rwa [pyIsSpace_toLower] at h2
  rw [pyStrip]
  have hdw : ((a :: s') ++ t).dropWhile pyIsSpace = (a :: s') ++ t := by
    apply dropWhile_eq_self_of_head
    intro x hx
    simp only [List.cons_append, List.head?_cons] at hx
    injection hx with hx1
    subst hx1
    exact hhead
  rw [hdw, List.reverse_append, List.dropWhile_append]
  by_cases hte : (t.reverse.dropWhile pyIsSpace).isEmpty = true
  · rw [if_pos hte]
    have hgl : ((a :: s').reverse).dropWhile pyIsSpace = (a :: s').reverse := by
      apply dropWhile_eq_self_of_head
      intro x hx
      rw [List.head?_reverse] at hx
      exact hlast x hx
    rw [hgl, List.reverse_reverse, pyLower, hs]
  · rw [if_neg hte, List.reverse_append, List.reverse_reverse, pyLower,
      List.map_append, hs]
    exact List.prefix_append _ _

theorem canonLine_pyStrip {l : PyStr} (h : canonLine l = true) :
    canonLine (pyStrip l) = true := by
  rw [canonLine, Bool.or_eq_true] at h ⊢
  rcases h with h | h
  · refine Or.inl (startsWith_pyStrip (by decide) ?_ ?_ h)
    · intro c hc
      injection hc with h2
      rw [← h2]
      decide
    · intro c hc
      injection hc with h2
      rw [← h2]
      decide
  · refine Or.inr (startsWith_pyStrip (by decide) ?_ ?_ h)
    · intro c hc
      injection hc with h2
      rw [← h2]
      decide
    · intro c hc
      injection hc with h2
      rw [← h2]
      decide

theorem name_to_num_vals {spkA spkB key num : PyStr}
    (h : name_to_num spkA spkB key = some num) : num = ['1'] ∨ num = ['2'] := by
  rw [name_to_num] at h
  by_cases h2 : key = pyLower spkB
  · rw [if_pos h2] at h
    injection h with h3
    exact Or.inr h3.symm
  · rw [if_neg h2] at h
    by_cases h1 : key = pyLower spkA
    · rw [if_pos h1] at h
      injection h with h3
      exact Or.inl h3.symm
    · rw [if_neg h1] at h
      cases h

theorem cycleNum_vals (n : Nat) : cycleNum n = ['1'] ∨ cycleNum n = ['2'] := by
  rw [cycleNum]
  split
  · exact Or.inl rfl
  · exact Or.inr rfl

theorem canonLine_speaker {num x : PyStr} (h : num = ['1'] ∨ num = ['2']) :
    canonLine ("Speaker ".toList ++ num ++ ": ".toList ++ x) = true := by
  rcases h with rfl | rfl
  · rw [canonLine]
    refine Bool.or_eq_true_iff.2 (Or.inl ?_)
    rw [pyStartsWith_iff]
    simp only [pyLower, List.map_append]
    have e : List.map Char.toLower ("Speaker ".toList) ++
        List.map Char.toLower ['1'] ++ List.map Char.toLower (": ".toList) =
        "speaker 1: ".toList := by decide
    rw [e]
    exact List.IsPrefix.trans (by decide) (List.prefix_append _ _)
  · rw [canonLine]
    refine Bool.or_eq_true_iff.2 (Or.inr ?_)
    rw [pyStartsWith_iff]
    simp only [pyLower, List.map_append]
    have e : List.map Char.toLower ("Speaker ".toList) ++
        List.map Char.toLower ['2'] ++ List.map Char.toLower (": ".toList) =
        "speaker 2: ".toList := by decide
    rw [e]
    exact List.IsPrefix.trans (by decide) (List.prefix_append _ _)

theorem matchedLine_canon {spkA spkB line out : PyStr}
    (h : matchedLine spkA spkB line = some out) : canonLine out = true := by
  rw [matchedLine] at h
  split at h
  · cases hm : name_to_num spkA spkB (pyLower (pyStrip (pySplitFirstColon line).1)) with
    | some num =>
      rw [hm] at h
      injection h with h2
      subst h2
      exact canonLine_speaker (name_to_num_vals hm)
    | none =>
      rw [hm] at h
      cases h
  · cases h

theorem matchedLine_no_newline {spkA spkB line out : PyStr}
    (h : matchedLine spkA spkB line = some out) (hline : ('\n' : Char) ∉ line) :
    ('\n' : Char) ∉ out := by
  rw [matchedLine] at h
  split at h
  · cases hm : name_to_num spkA spkB (pyLower (pyStrip (pySplitFirstColon line).1)) with
    | some num =>
      rw [hm] at h
      injection h with h2
      subst h2
      intro hn
      rcases List.mem_append.1 hn with hn1 | hn2
      · rcases List.mem_append.1 hn1 with hn3 | hn4
        · rcases List.mem_append.1 hn3 with hn5 | hn6
          · exact absurd hn5 (by decide)
          · rcases name_to_num_vals hm with rfl | rfl <;> exact absurd hn6 (by decide)
        · exact absurd hn4 (by decide)
      · have h3 := mem_pyStrip hn2
        rcases mem_pySplitFirstColon_right h3 with h4 | h4
        · exact hline h4
        · exact absurd h4 (by decide)
    | none =>
      rw [hm] at h
      cases h
  · cases h

theorem numberedSpec_canon (spkA spkB : PyStr) :
    ∀ (ls : List PyStr) (n : Nat), ∀ o ∈ numberedSpec spkA spkB n ls,
      canonLine o = true := by
  intro ls
  induction ls with
  | nil =>
    intro n o ho
    simp only [numberedSpec] at ho
    exact absurd ho (List.not_mem_nil o)
  | cons raw rest ih =>
    intro n o ho
    simp only [numberedSpec] at ho
    by_cases h1 : pyStrip raw = []
    · rw [if_pos h1] at ho
      exact ih n o ho
    · rw [if_neg h1] at ho
      by_cases h2 : canonLine (pyStrip raw) = true
      · rw [if_pos h2] at ho
        rcases List.mem_cons.1 ho with rfl | ho
        · exact h2
        · exact ih n o ho
      · rw [if_neg h2] at ho
        cases hm : matchedLine spkA spkB (pyStrip raw) with
        | some out' =>
          rw [hm] at ho
          rcases List.mem_cons.1 ho with rfl | ho
          · exact matchedLine_canon hm
          · exact ih n o ho
        | none =>
          rw [hm] at ho
          rcases List.mem_cons.1 ho with rfl | ho
          · exact canonLine_speaker (cycleNum_vals n)
          · exact ih (n + 1) o ho

theorem numberedSpec_ne_nil (spkA spkB : PyStr) (ls : List PyStr) (n : Nat) :
    ∀ o ∈ numberedSpec spkA spkB n ls, o ≠ [] :=
  fun o ho => canonLine_ne_nil (numberedSpec_canon spkA spkB ls n o ho)

theorem numberedSpec_forall2 (spkA spkB : PyStr) :
    ∀ (ls : List PyStr) (n : Nat),
      List.Forall₂ (fun l o => canonLine l = true → o = l)
        ((ls.map pyStrip).filter fun l => !l.isEmpty)
        (numberedSpec spkA spkB n ls) := by
  intro ls
  induction ls with
  | nil =>
    intro n
    simp only [numberedSpec, List.map_nil, List.filter_nil]
    exact List.Forall₂.nil
  | cons raw rest ih =>
    intro n
    simp only [numberedSpec, List.map_cons, List.filter_cons]
    by_cases h1 : pyStrip raw = []
    · have he : (!(pyStrip raw).isEmpty) = false := by
        rw [h1]
        rfl
      rw [he, if_pos h1]
      simp only [Bool.false_eq_true, if_false]
      exact ih n
    · have he : (!(pyStrip raw).isEmpty) = true := by
        cases hh : (pyStrip raw).isEmpty
        · rfl
        · exact absurd (List.isEmpty_iff.1 hh) h1
      rw [he, if_neg h1]
      simp only [if_true]
      by_cases h2 : canonLine (pyStrip raw) = true
      · rw [if_pos h2]
        exact List.Forall₂.cons (fun _ => rfl) (ih n)
      · rw [if_neg h2]
        cases hm : matchedLine spkA spkB (pyStrip raw) with
        | some out' => exact List.Forall₂.cons (fun hc => absurd hc h2) (ih n)
        | none => exact List.Forall₂.cons (fun hc => absurd hc h2) (ih (n + 1))

theorem numberedSpec_id (spkA spkB : PyStr) :
    ∀ (ls : List PyStr) (n : Nat),
      (∀ l ∈ ls, pyStrip l = l ∧ canonLine l = true) →
      numberedSpec spkA spkB n ls = ls := by
  intro ls
  induction ls with
  | nil =>
    intro n _
    rfl
  | cons raw rest ih =>
    intro n h
    obtain ⟨hs, hc⟩ := h raw (List.mem_cons_self raw rest)
    simp only [numberedSpec, hs]
    rw [if_neg (canonLine_ne_nil hc), if_pos hc,
      ih n fun l hl => h l (List.mem_cons_of_mem raw hl)]

theorem numberedSpec_canonInput (spkA spkB : PyStr) :
    ∀ (ls : List PyStr) (n : Nat), (∀ l ∈ ls, canonLine l = true) →
      numberedSpec spkA spkB n ls = ls.map pyStrip := by
  intro ls
  induction ls with
  | nil =>
    intro n _
    rfl
  | cons raw rest ih =>
    intro n h
    have hc := h raw (List.mem_cons_self raw rest)
    have hc2 : canonLine (pyStrip raw) = true := canonLine_pyStrip hc
    simp only [numberedSpec, List.map_cons]
    rw [if_neg (canonLine_ne_nil hc2), if_pos hc2,
      ih n fun l hl => h l (List.mem_cons_of_mem raw hl)]

theorem numberedSpec_no_newline (spkA spkB : PyStr) :
    ∀ (ls : List PyStr) (n : Nat), (∀ l ∈ ls, ('\n' : Char) ∉ l) →
      ∀ o ∈ numberedSpec spkA spkB n ls, ('\n' : Char) ∉ o := by
  intro ls
  induction ls with
  | nil =>
    intro n _ o ho
    simp only [numberedSpec] at ho
    exact absurd ho (List.not_mem_nil o)
  | cons raw rest ih =>
    intro n h o ho
    have hraw : ('\n' : Char) ∉ raw := h raw (List.mem_cons_self raw rest)
    have hrest := fun l hl => h l (List.mem_cons_of_mem raw hl)
    simp only [numberedSpec] at ho
    by_cases h1 : pyStrip raw = []
    · rw [if_pos h1] at ho
      exact ih n hrest o ho
    · rw [if_neg h1] at ho
      by_cases h2 : canonLine (pyStrip raw) = true
      · rw [if_pos h2] at ho
        rcases List.mem_cons.1 ho with rfl | ho
        · exact fun hn => hraw (mem_pyStrip hn)
        · exact ih n hrest o ho
      · rw [if_neg h2] at ho
        cases hm : matchedLine spkA spkB (pyStrip raw) with
        | some out' =>
          rw [hm] at ho
          rcases List.mem_cons.1 ho with rfl | ho
          · exact matchedLine_no_newline hm fun hn => hraw (mem_pyStrip hn)
          · exact ih n hrest o ho
        | none =>
          rw [hm] at ho
          rcases List.mem_cons.1 ho with rfl | ho
          · intro hn
            rcases List.mem_append.1 hn with hn1 | hn2
            · rcases List.mem_append.1 hn1 with hn3 | hn4
              · rcases List.mem_append.1 hn3 with hn5 | hn6
                · exact absurd hn5 (by decide)
                · rcases cycleNum_vals n with hv | hv <;> rw [hv] at hn6 <;>
                    exact absurd hn6 (by decide)
              · exact absurd hn4 (by decide)
            · exact hraw (mem_pyStrip hn2)
          · exact ih (n + 1) hrest o ho

/-- C3: the Normalizer's out_lines equal the specification recursion in
which exactly the non-blank lines that are neither canonical nor
speaker-matched receive the counter number, the counter starts at 1,
strictly alternates on consecutive values, and only fallback lines
advance it (the matched and canonical branches of numberedSpec pass `n`
through unchanged). -/
theorem C3_normalizer_alternation (spkA spkB s : PyStr) :
    vibevoiceLines spkA spkB s = numberedSpec spkA spkB 0 (pyLines s) ∧
    cycleNum 0 = ['1'] ∧
    (∀ n, cycleNum (n + 1) ≠ cycleNum n) ∧
    (∀ n, cycleNum (n + 2) = cycleNum n) := by
  refine ⟨vibevoiceLines_eq_spec spkA spkB s, rfl, ?_, ?_⟩
  · intro n
    rw [cycleNum, cycleNum]
    by_cases h : n % 2 = 0
    · have h1 : (n + 1) % 2 ≠ 0 := by omega
      rw [if_neg h1, if_pos h]
      decide
    · have h1 : (n + 1) % 2 = 0 := by omega
      rw [if_pos h1, if_neg h]
      decide
  · intro n
    have h2 : (n + 2) % 2 = n % 2 := by omega
    rw [cycleNum, cycleNum, h2]

/-- C10: every output line of the Normalizer starts, case-insensitively,
with a speaker-1 or speaker-2 tag; the number of output lines equals the
number of non-blank input lines; and a non-blank line that already
carries a canonical prefix is kept verbatim (as its stripped self) at
its position, not rewritten. -/
theorem C10_normalizer_invariants (spkA spkB s : PyStr) :
    (∀ o ∈ vibevoiceLines spkA spkB s, canonLine o = true) ∧
    (vibevoiceLines spkA spkB s).length = (nonblankLines s).length ∧
    (∀ i, canonLine ((nonblankLines s).getD i []) = true →
      (vibevoiceLines spkA spkB s).getD i [] = (nonblankLines s).getD i []) := by
  have hspec := vibevoiceLines_eq_spec spkA spkB s
  have hf2 := numberedSpec_forall2 spkA spkB (pyLines s) 0
  refine ⟨?_, ?_, ?_⟩
  · intro o ho
    rw [hspec] at ho
    exact numberedSpec_canon spkA spkB (pyLines s) 0 o ho
  · rw [hspec, nonblankLines]
    exact hf2.length_eq.symm
  · intro i hci
    rw [hspec]
    rw [nonblankLines] at hci ⊢
    obtain ⟨hlen2, hR⟩ := List.forall₂_iff_get.1 hf2
    by_cases hi : i < (((pyLines s).map pyStrip).filter fun l => !l.isEmpty).length
    · have hi2 : i < (numberedSpec spkA spkB 0 (pyLines s)).length := hlen2 ▸ hi
      have hRi := hR i hi hi2
      rw [List.getD_eq_getElem _ _ hi] at hci ⊢
      rw [List.getD_eq_getElem _ _ hi2]
      exact hRi hci
    · have hd : ((((pyLines s).map pyStrip).filter fun l => !l.isEmpty).getD i []) = [] :=
        List.getD_eq_default _ _ (Nat.le_of_not_lt hi)
      rw [hd] at hci
      exact absurd hci (by decide)

/-- C10 witness: a concrete script whose first line is canonical is kept
verbatim at position 0, and that output line is canonical. -/
theorem C10_normalizer_invariants_witness :
    canonLine ("Speaker 1: hi".toList) = true ∧
    (vibevoiceLines "Alice".toList "Frank".toList
        "Speaker 1: hi\nyo".toList).getD 0 [] =
      (nonblankLines "Speaker 1: hi\nyo".toList).getD 0 [] :=
  ⟨(C10_normalizer_invariants "Alice".toList "Frank".toList
      "Speaker 1: hi\nyo".toList).1 "Speaker 1: hi".toList (by decide),
    (C10_normalizer_invariants "Alice".toList "Frank".toList
      "Speaker 1: hi\nyo".toList).2.2 0 (by decide)⟩

/-- C4 counterexample: a canonical line with trailing whitespace is not
returned unchanged (the loop strips every line), and normalize is not
idempotent: a speaker-name line with empty remainder produces a line with
a trailing space that the second pass strips. -/
theorem C4_counterexample :
    to_vibevoice_numbered_script "Speaker 1: hi ".toList "Alice".toList
        "Frank".toList ≠ "Speaker 1: hi ".toList ∧
    to_vibevoice_numbered_script
        (to_vibevoice_numbered_script "Alice:".toList "Alice".toList "Frank".toList)
        "Alice".toList "Frank".toList ≠
      to_vibevoice_numbered_script "Alice:".toList "Alice".toList "Frank".toList :=
  ⟨by decide, by decide⟩

/-- C4 amended: the Normalizer is the identity on scripts whose every
line is whitespace-trimmed and already carries a canonical prefix; and
from the second application onwards it is idempotent: applying it three
times always equals applying it twice (the first pass can leave a
trailing space on a matched line with empty remainder, which the second
pass strips). -/
theorem C4_idempotent_amended (spkA spkB s : PyStr) :
    ((∀ l ∈ pyLines s, pyStrip l = l ∧ canonLine l = true) →
      to_vibevoice_numbered_script s spkA spkB = s) ∧
    to_vibevoice_numbered_script
        (to_vibevoice_numbered_script (to_vibevoice_numbered_script s spkA spkB)
          spkA spkB) spkA spkB =
      to_vibevoice_numbered_script (to_vibevoice_numbered_script s spkA spkB)
        spkA spkB := by
  have ha : ∀ (u : PyStr), (∀ l ∈ pyLines u, pyStrip l = l ∧ canonLine l = true) →
      to_vibevoice_numbered_script u spkA spkB = u := by
    intro u h
    rw [to_vibevoice_numbered_script, vibevoiceLines_eq_spec,
      numberedSpec_id spkA spkB (pyLines u) 0 h, pyUnlines, pyLines]
    exact List.intercalate_splitOn _ '\n'
  have key : ∀ (u : PyStr), (∀ l ∈ pyLines u, canonLine l = true) →
      pyLines (to_vibevoice_numbered_script u spkA spkB) =
        (pyLines u).map pyStrip := by
    intro u hu
    have hmap : vibevoiceLines spkA spkB u = (pyLines u).map pyStrip :=
      (vibevoiceLines_eq_spec spkA spkB u).trans
        (numberedSpec_canonInput spkA spkB (pyLines u) 0 hu)
    rw [to_vibevoice_numbered_script, hmap, pyUnlines, pyLines]
    apply List.splitOn_intercalate
    · intro l hl
      obtain ⟨raw, hraw, rfl⟩ := List.mem_map.1 hl
      exact fun hn => pyLines_no_newline u raw hraw (mem_pyStrip hn)
    · intro hnil
      have hlz := congrArg List.length hnil
      simp only [List.length_map, List.length_nil] at hlz
      have h2 : pyLines u ≠ [] := by
        rw [pyLines, List.splitOn]
        exact List.splitOnP_ne_nil _ u
      exact h2 (List.length_eq_zero.1 hlz)
  refine ⟨ha s, ?_⟩
  cases hL1 : vibevoiceLines spkA spkB s with
  | nil =>
    have hz : to_vibevoice_numbered_script s spkA spkB = [] := by
      rw [to_vibevoice_numbered_script, hL1]
      rfl
    have hnil : to_vibevoice_numbered_script [] spkA spkB = [] := rfl
    rw [hz, hnil, hnil]
  | cons a t =>
    have hL1ne : vibevoiceLines spkA spkB s ≠ [] := by
      rw [hL1]
      simp
    have hlines1 : pyLines (to_vibevoice_numbered_script s spkA spkB) =
        vibevoiceLines spkA spkB s := by
      rw [to_vibevoice_numbered_script, pyUnlines, pyLines]
      apply List.splitOn_intercalate
      · intro l hl
        rw [vibevoiceLines_eq_spec] at hl
        exact numberedSpec_no_newline spkA spkB (pyLines s) 0
          (pyLines_no_newline s) l hl
      · exact hL1ne
    have hcanon1 : ∀ l ∈ pyLines (to_vibevoice_numbered_script s spkA spkB),
        canonLine l = true := by
      rw [hlines1]
      intro l hl
      rw [vibevoiceLines_eq_spec] at hl
      exact numberedSpec_canon spkA spkB (pyLines s) 0 l hl
    have hlines2 := key _ hcanon1
    apply ha
    rw [hlines2]
    intro l hl
    obtain ⟨raw, hraw, rfl⟩ := List.mem_map.1 hl
    exact ⟨pyStrip_idem raw, canonLine_pyStrip (hcanon1 raw hraw)⟩

/-- C4 amended witness: a trimmed canonical script is returned unchanged. -/
theorem C4_idempotent_amended_witness :
    to_vibevoice_numbered_script "Speaker 1: hi\nSpeaker 2: yo".toList
        "Alice".toList "Frank".toList =
      "Speaker 1: hi\nSpeaker 2: yo".toList :=
  (C4_idempotent_amended "Alice".toList "Frank".toList
    "Speaker 1: hi\nSpeaker 2: yo".toList).1 (by decide)

/-! ### Bullet-cleanup lemmas -/

theorem getLast?_cons_of_ne_nil (a : Char) {l : PyStr} (h : l ≠ []) :
    (a :: l).getLast? = l.getLast? := by
  cases l with
  | nil => exact absurd rfl h
  | cons b t => exact List.getLast?_cons_cons

theorem noDouble_tail {c : Char} {l : PyStr}
    (h : noDoubleSpace (c :: l) = true) : noDoubleSpace l = true := by
  cases l with
  | nil => rfl
  | cons d t =>
    rw [noDoubleSpace, Bool.and_eq_true] at h
    exact h.2

theorem noDouble_of_no_space : ∀ (s : PyStr),
    (∀ c ∈ s, c ≠ ' ') → noDoubleSpace s = true
  | [], _ => rfl
  | [_], _ => rfl
  | c :: d :: rest, h => by
    rw [noDoubleSpace, Bool.and_eq_true]
    constructor
    · have hc := h c (List.mem_cons_self _ _)
      simp [hc]
    · exact noDouble_of_no_space (d :: rest)
        fun x hx => h x (List.mem_cons_of_mem _ hx)

theorem noDouble_append : ∀ (A B : PyStr), noDoubleSpace A = true →
    noDoubleSpace B = true →
    (∀ x y, A.getLast? = some x → B.head? = some y → ¬(x = ' ' ∧ y = ' ')) →
    noDoubleSpace (A ++ B) = true
  | [], B, _, hB, _ => hB
  | [a], B, _, hB, hxy => by
    cases B with
    | nil => rfl
    | cons b t =>
      show noDoubleSpace (a :: b :: t) = true
      rw [noDoubleSpace, Bool.and_eq_true]
      refine ⟨?_, hB⟩
      have h2 := hxy a b rfl rfl
      by_cases ha : a = ' '
      · by_cases hb : b = ' '
        · exact absurd ⟨ha, hb⟩ h2
        · simp [ha, hb]
      · simp [ha]
  | a :: a2 :: A', B, hA, hB, hxy => by
    have hA1 : (!(decide (a = ' ') && decide (a2 = ' '))) = true := by
      rw [noDoubleSpace, Bool.and_eq_true] at hA
      exact hA.1
    have hA2 := noDouble_tail hA
    have hrec := noDouble_append (a2 :: A') B hA2 hB
      fun x y hx hy => hxy x y (by rw [List.getLast?_cons_cons]; exact hx) hy
    show noDoubleSpace (a :: a2 :: (A' ++ B)) = true
    rw [noDoubleSpace, Bool.and_eq_true]
    exact ⟨hA1, hrec⟩

theorem collapseWsAux_true_head :
    ∀ (s : PyStr) (a : Char), (collapseWsAux true s).head? = some a →
      pyIsSpace a = false
  | [], a, h => by cases h
  | c :: rest, a, h => by
    rw [collapseWsAux] at h
    by_cases hc : pyIsSpace c = true
    · rw [if_pos hc, if_pos rfl] at h
      exact collapseWsAux_true_head rest a h
    · rw [if_neg hc] at h
      injection h with h1
      rw [← h1]
      cases hcb : pyIsSpace c
      · rfl
      · exact absurd hcb hc

theorem collapseWsAux_false_nil_iff (s : PyStr) :
    collapseWsAux false s = [] ↔ s = [] := by
  cases s with
  | nil => exact Iff.rfl
  | cons c rest =>
    rw [collapseWsAux]
    constructor
    · intro h
      by_cases hc : pyIsSpace c = true
      · rw [if_pos hc, if_neg (by simp)] at h
        cases h
      · rw [if_neg hc] at h
        cases h
    · intro h
      cases h

theorem collapseWsAux_true_nil_iff :
    ∀ (s : PyStr), collapseWsAux true s = [] ↔ ∀ c ∈ s, pyIsSpace c = true
  | [] => by simp [collapseWsAux]
  | c :: rest => by
    rw [collapseWsAux]
    by_cases hc : pyIsSpace c = true
    · rw [if_pos hc, if_pos rfl]
      rw [collapseWsAux_true_nil_iff rest]
      constructor
      · intro h x hx
        rcases List.mem_cons.1 hx with rfl | hx
        · exact hc
        · exact h x hx
      · intro h x hx
        exact h x (List.mem_cons_of_mem _ hx)
    · rw [if_neg hc]
      constructor
      · intro h
        cases h
      · intro h
        exact absurd (h c (List.mem_cons_self _ _)) hc

theorem collapseWsAux_plain :
    ∀ (s : PyStr) (st : Bool), onlyPlainSpaces (collapseWsAux st s) = true
  | [], _ => rfl
  | c :: rest, st => by
    rw [collapseWsAux]
    by_cases hc : pyIsSpace c = true
    · rw [if_pos hc]
      cases st with
      | true =>
        rw [if_pos rfl]
        exact collapseWsAux_plain rest true
      | false =>
        rw [if_neg (by simp)]
        rw [onlyPlainSpaces, List.all_cons]
        have := collapseWsAux_plain rest true
        rw [onlyPlainSpaces] at this
        simp [this]
    · rw [if_neg hc]
      rw [onlyPlainSpaces, List.all_cons]
      have := collapseWsAux_plain rest false
      rw [onlyPlainSpaces] at this
      have hc' : pyIsSpace c = false := by
        cases hcb : pyIsSpace c
        · rfl
        · exact absurd hcb hc
      simp [this, hc']

theorem collapseWsAux_noDouble :
    ∀ (s : PyStr) (st : Bool), noDoubleSpace (collapseWsAux st s) = true
  | [], _ => rfl
  | c :: rest, st => by
    rw [collapseWsAux]
    by_cases hc : pyIsSpace c = true
    · rw [if_pos hc]
      cases st with
      | true =>
        rw [if_pos rfl]
        exact collapseWsAux_noDouble rest true
      | false =>
        rw [if_neg (by simp)]
        cases hR : collapseWsAux true rest with
        | nil => rfl
        | cons a R' =>
          rw [noDoubleSpace, Bool.and_eq_true]
          constructor
          · have ha := collapseWsAux_true_head rest a (by rw [hR]; rfl)
            have ha' : a ≠ ' ' := by
              intro h0
              rw [h0] at ha
              exact absurd ha (by decide)
            simp [ha']
          · rw [← hR]
            exact collapseWsAux_noDouble rest true
    · rw [if_neg hc]
      cases hR : collapseWsAux false rest with
      | nil => rfl
      | cons a R' =>
        rw [noDoubleSpace, Bool.and_eq_true]
        constructor
        · have hc2 : c ≠ ' ' := by
            intro h0
            rw [h0] at hc
            exact absurd (by decide : pyIsSpace ' ' = true) hc
          simp [hc2]
        · rw [← hR]
          exact collapseWsAux_noDouble rest false

theorem collapseWsAux_head_pres (s : PyStr) (st : Bool) (a : Char)
    (h : s.head? = some a) (hws : pyIsSpace a = false) :
    (collapseWsAux st s).head? = some a := by
  cases s with
  | nil => cases h
  | cons c rest =>
    injection h with h1
    subst h1
    rw [collapseWsAux, if_neg (by simp [hws])]
    rfl

theorem collapseWsAux_getLast :
    ∀ (s : PyStr) (st : Bool) (b : Char), s.getLast? = some b →
      pyIsSpace b = false → (collapseWsAux st s).getLast? = some b
  | [], _, b, h, _ => by cases h
  | c :: rest, st, b, h, hws => by
    rw [collapseWsAux]
    by_cases hrest : rest = []
    · subst hrest
      rw [List.getLast?_singleton] at h
      injection h with h1
      subst h1
      rw [if_neg (by simp [hws])]
      exact List.getLast?_singleton _
    · have hbr : rest.getLast? = some b := by
        rw [← h]
        exact (getLast?_cons_of_ne_nil c hrest).symm
      by_cases hc : pyIsSpace c = true
      · rw [if_pos hc]
        have hne : collapseWsAux true rest ≠ [] := by
          intro h0
          have hall := (collapseWsAux_true_nil_iff rest).1 h0
          have hbm : b ∈ rest := List.mem_of_getLast?_eq_some hbr
          rw [hall b hbm] at hws
          cases hws
        cases st with
        | true =>
          rw [if_pos rfl]
          exact collapseWsAux_getLast rest true b hbr hws
        | false =>
          rw [if_neg (by simp)]
          rw [getLast?_cons_of_ne_nil _ hne]
          exact collapseWsAux_getLast rest true b hbr hws
      · rw [if_neg hc]
        have hne : collapseWsAux false rest ≠ [] := by
          intro h0
          exact hrest ((collapseWsAux_false_nil_iff rest).1 h0)
        rw [getLast?_cons_of_ne_nil _ hne]
        exact collapseWsAux_getLast rest false b hbr hws

theorem collapseWs_nil_iff (s : PyStr) : collapseWs s = [] ↔ s = [] :=
  collapseWsAux_false_nil_iff s

theorem splitOn_space_pieces : ∀ (t : PyStr), t ≠ [] →
    (∀ c, t.head? = some c → c ≠ ' ') →
    noDoubleSpace t = true →
    (∀ c, t.getLast? = some c → c ≠ ' ') →
    ∀ w ∈ t.splitOn ' ', w ≠ []
  | [], hne, _, _, _ => absurd rfl hne
  | [c], _, hh, _, _ => by
    intro w hw
    have hc : c ≠ ' ' := hh c rfl
    rw [List.splitOn, List.splitOnP_cons, if_neg (by simp [hc]),
      List.splitOnP_nil, List.modifyHead_cons] at hw
    simp only [List.mem_singleton] at hw
    subst hw
    simp
  | c :: d :: rest, _, hh, hnd, hl => by
    intro w hw
    have hc : c ≠ ' ' := hh c rfl
    rw [List.splitOn, List.splitOnP_cons, if_neg (by simp [hc])] at hw
    by_cases hd : d = ' '
    · subst hd
      rw [List.splitOnP_cons, if_pos (by simp), List.modifyHead_cons] at hw
      rcases List.mem_cons.1 hw with rfl | hw
      · simp
      · have hrne : rest ≠ [] := by
          intro h0
          subst h0
          exact hl ' ' rfl rfl
        have hrh : ∀ e, rest.head? = some e → e ≠ ' ' := by
          intro e he hesp
          subst hesp
          cases rest with
          | nil => cases he
          | cons x rest' =>
            injection he with he1
            subst he1
            simp [noDoubleSpace] at hnd
        have hnd' : noDoubleSpace rest = true := noDouble_tail (noDouble_tail hnd)
        have hl' : ∀ e, rest.getLast? = some e → e ≠ ' ' := by
          intro e he
          apply hl e
          rw [List.getLast?_cons_cons, getLast?_cons_of_ne_nil ' ' hrne]
          exact he
        have hmem : w ∈ rest.splitOn ' ' := by
          rw [List.splitOn]
          exact hw
        exact splitOn_space_pieces rest hrne hrh hnd' hl' w hmem
    · cases hsp : (d :: rest).splitOnP (fun b => b == ' ') with
      | nil => exact absurd hsp (List.splitOnP_ne_nil _ _)
      | cons hd0 tl =>
        rw [hsp, List.modifyHead_cons] at hw
        rcases List.mem_cons.1 hw with rfl | hw
        · simp
        · exact splitOn_space_pieces (d :: rest) (by simp)
            (fun e he => by injection he with he1; rw [← he1]; exact hd)
            (noDouble_tail hnd)
            (fun e he => hl e (by rw [List.getLast?_cons_cons]; exact he))
            w (by rw [List.splitOn, hsp]; exact List.mem_cons_of_mem _ hw)

theorem splitOn_words_ws_free {t : PyStr} (hplain : onlyPlainSpaces t = true) :
    ∀ w ∈ t.splitOn ' ', ∀ c ∈ w, pyIsSpace c = false := by
  intro w hw c hc
  have hct : c ∈ t := mem_of_mem_splitOn hw hc
  rw [onlyPlainSpaces, List.all_eq_true] at hplain
  have h2 := hplain c hct
  have hcs : c ≠ ' ' := fun h0 => splitOn_pieces_not_mem t w hw (h0 ▸ hc)
  cases hb : pyIsSpace c
  · rfl
  · rw [hb] at h2
    simp at h2
    exact absurd h2 hcs

theorem splitOn_head_char {t : PyStr} {c : Char} (htc : t.head? = some c)
    (hc : c ≠ ' ') : ∃ w' rest, t.splitOn ' ' = (c :: w') :: rest := by
  cases t with
  | nil => cases htc
  | cons a t' =>
    injection htc with h1
    subst h1
    rw [List.splitOn, List.splitOnP_cons, if_neg (by simp [hc])]
    cases hsp : t'.splitOnP (fun b => b == ' ') with
    | nil => exact absurd hsp (List.splitOnP_ne_nil _ _)
    | cons h0 tl =>
      rw [List.modifyHead_cons]
      exact ⟨h0, tl, rfl⟩

theorem fitWords_mem : ∀ (B : Nat) (ws : List PyStr), ∀ w ∈ fitWords B ws, w ∈ ws := by
  intro B ws
  induction ws generalizing B with
  | nil =>
    intro w hw
    simp [fitWords] at hw
  | cons w0 ws' ih =>
    intro w hw
    rw [fitWords] at hw
    by_cases hl : w0.length ≤ B
    · rw [if_pos hl] at hw
      rcases List.mem_cons.1 hw with rfl | hw
      · exact List.mem_cons_self _ _
      · exact List.mem_cons_of_mem _ (ih (B - w0.length - 1) w hw)
    · rw [if_neg hl] at hw
      cases hw

theorem joinWords_single (w : PyStr) : joinWords [w] = w := by
  rw [joinWords, List.intercalate]
  simp

theorem joinWords_cons_cons (w x : PyStr) (ws : List PyStr) :
    joinWords (w :: x :: ws) = w ++ ' ' :: joinWords (x :: ws) := by
  rw [joinWords, joinWords, List.intercalate, List.intercalate,
    List.intersperse_cons₂]
  simp

theorem joinWords_fitWords_length : ∀ (ws : List PyStr) (B : Nat),
    (∀ w ∈ ws, w ≠ []) → (joinWords (fitWords B ws)).length ≤ B
  | [], B, _ => by simp [fitWords, joinWords, List.intercalate]
  | w :: ws', B, hne => by
    rw [fitWords]
    by_cases hw : w.length ≤ B
    · rw [if_pos hw]
      cases hrest : fitWords (B - w.length - 1) ws' with
      | nil =>
        rw [joinWords_single]
        exact hw
      | cons r rs =>
        have hrb : r.length ≤ B - w.length - 1 := by
          cases ws' with
          | nil => cases hrest
          | cons w2 ws'' =>
            rw [fitWords] at hrest
            by_cases h2 : w2.length ≤ B - w.length - 1
            · rw [if_pos h2] at hrest
              injection hrest with hr1 _
              exact hr1 ▸ h2
            · rw [if_neg h2] at hrest
              cases hrest
        have hrmem : r ∈ ws' :=
          fitWords_mem _ ws' r (by rw [hrest]; exact List.mem_cons_self _ _)
        have hrne : r ≠ [] := hne r (List.mem_cons_of_mem _ hrmem)
        have hrpos : 0 < r.length := List.length_pos.2 hrne
        have hih := joinWords_fitWords_length ws' (B - w.length - 1)
          fun x hx => hne x (List.mem_cons_of_mem _ hx)
        rw [hrest] at hih
        rw [joinWords_cons_cons]
        simp only [List.length_append, List.length_cons]
        omega
    · rw [if_neg hw]
      simp [joinWords, List.intercalate]

theorem mem_joinWords {ws : List PyStr} {c : Char} (h : c ∈ joinWords ws) :
    (∃ w ∈ ws, c ∈ w) ∨ c = ' ' := by
  rw [joinWords, List.intercalate] at h
  obtain ⟨piece, hpi, hcp⟩ := List.mem_flatten.1 h
  rcases mem_of_mem_intersperse hpi with hp | rfl
  · exact Or.inl ⟨piece, hp, hcp⟩
  · right
    simpa using hcp

theorem joinWords_plain (ws : List PyStr)
    (h : ∀ w ∈ ws, ∀ c ∈ w, pyIsSpace c = false) :
    onlyPlainSpaces (joinWords ws) = true := by
  rw [onlyPlainSpaces, List.all_eq_true]
  intro c hc
  rcases mem_joinWords hc with ⟨w, hw, hcw⟩ | rfl
  · simp [h w hw c hcw]
  · simp

theorem joinWords_head : ∀ (w : PyStr) (ws : List PyStr), w ≠ [] →
    (joinWords (w :: ws)).head? = w.head?
  | w, [], _ => by rw [joinWords_single]
  | w, x :: ws', hne => by
    rw [joinWords_cons_cons, List.head?_append]
    cases hw : w.head? with
    | none => exact absurd (List.head?_eq_none_iff.1 hw) hne
    | some a => rfl

theorem joinWords_noDouble : ∀ (ws : List PyStr),
    (∀ w ∈ ws, w ≠ [] ∧ ∀ c ∈ w, pyIsSpace c = false) →
    noDoubleSpace (joinWords ws) = true
  | [], _ => rfl
  | [w], h => by
    rw [joinWords_single]
    obtain ⟨_, hfree⟩ := h w (by simp)
    apply noDouble_of_no_space
    intro c hc h0
    have h2 := hfree c hc
    rw [h0] at h2
    exact absurd h2 (by decide)
  | w :: x :: ws', h => by
    obtain ⟨hwne, hwfree⟩ := h w (List.mem_cons_self _ _)
    obtain ⟨hxne, hxfree⟩ := h x (List.mem_cons_of_mem _ (List.mem_cons_self _ _))
    have hrec := joinWords_noDouble (x :: ws')
      fun u hu => h u (List.mem_cons_of_mem _ hu)
    rw [joinWords_cons_cons]
    apply noDouble_append w (' ' :: joinWords (x :: ws'))
    · apply noDouble_of_no_space
      intro c hc h0
      have h2 := hwfree c hc
      rw [h0] at h2
      exact absurd h2 (by decide)
    · cases hJ : joinWords (x :: ws') with
      | nil => rfl
      | cons a J' =>
        rw [noDoubleSpace, Bool.and_eq_true]
        constructor
        · have hh : (joinWords (x :: ws')).head? = x.head? := joinWords_head x ws' hxne
          rw [hJ] at hh
          obtain ⟨a0, x', rfl⟩ : ∃ a0 x', x = a0 :: x' := by
            cases x with
            | nil => exact absurd rfl hxne
            | cons a0 x' => exact ⟨a0, x', rfl⟩
          rw [List.head?_cons, List.head?_cons] at hh
          injection hh with hh1
          subst hh1
          have hws := hxfree a (List.mem_cons_self _ _)
          have ha0 : a ≠ ' ' := by
            intro h0
            rw [h0] at hws
            exact absurd hws (by decide)
          simp [ha0]
        · rw [← hJ]
          exact hrec
    · intro p q hp hq hpq
      obtain ⟨hps, _⟩ := hpq
      have hpm : p ∈ w := List.mem_of_getLast?_eq_some hp
      have h2 := hwfree p hpm
      rw [hps] at h2
      exact absurd h2 (by decide)

theorem pyShorten_props {t : PyStr}
    (htne : t ≠ [])
    (hth : ∀ c, t.head? = some c → isBulletMarker c = false)
    (htp : onlyPlainSpaces t = true)
    (htd : noDoubleSpace t = true)
    (htl : ∀ c, t.getLast? = some c → pyIsSpace c = false) :
    pyShorten 320 ['…'] t ≠ [] ∧
    (pyShorten 320 ['…'] t).length ≤ 320 ∧
    (∀ c, (pyShorten 320 ['…'] t).head? = some c → isBulletMarker c = false) ∧
    onlyPlainSpaces (pyShorten 320 ['…'] t) = true ∧
    noDoubleSpace (pyShorten 320 ['…'] t) = true := by
  rw [pyShorten]
  by_cases hfit : t.length ≤ 320
  · rw [if_pos hfit]
    exact ⟨htne, hfit, hth, htp, htd⟩
  · rw [if_neg hfit]
    have hth_sp : ∀ c, t.head? = some c → c ≠ ' ' := by
      intro c hc h0
      have h2 := hth c hc
      rw [h0] at h2
      exact absurd h2 (by decide)
    have htl_sp : ∀ c, t.getLast? = some c → c ≠ ' ' := by
      intro c hc h0
      have h2 := htl c hc
      rw [h0] at h2
      exact absurd h2 (by decide)
    have hwords_ne : ∀ w ∈ t.splitOn ' ', w ≠ [] :=
      splitOn_space_pieces t htne hth_sp htd htl_sp
    have hwords_free : ∀ w ∈ t.splitOn ' ', ∀ c ∈ w, pyIsSpace c = false :=
      splitOn_words_ws_free htp
    cases hkept : fitWords (320 - (['…'] : PyStr).length) (t.splitOn ' ') with
    | nil =>
      refine ⟨by simp, by simp, ?_, by decide, by decide⟩
      intro c hc
      injection hc with hc1
      rw [← hc1]
      decide
    | cons k ks =>
      have hkmem : ∀ u ∈ k :: ks, u ∈ t.splitOn ' ' := fun u hu =>
        fitWords_mem _ _ u (by rw [hkept]; exact hu)
      have hkprops : ∀ u ∈ k :: ks, u ≠ [] ∧ ∀ c ∈ u, pyIsSpace c = false :=
        fun u hu => ⟨hwords_ne u (hkmem u hu), hwords_free u (hkmem u hu)⟩
      have hkne : k ≠ [] := (hkprops k (List.mem_cons_self _ _)).1
      refine ⟨by simp, ?_, ?_, ?_, ?_⟩
      · have hlen := joinWords_fitWords_length (t.splitOn ' ')
          (320 - (['…'] : PyStr).length) hwords_ne
        rw [hkept] at hlen
        have he : (320 - (['…'] : PyStr).length) = 319 := rfl
        rw [he] at hlen
        simp only [List.length_append, List.length_cons, List.length_nil]
        omega
      · intro c hc
        obtain ⟨c0, ht0⟩ : ∃ c0, t.head? = some c0 := by
          cases t with
          | nil => exact absurd rfl htne
          | cons a t' => exact ⟨a, rfl⟩
        obtain ⟨w', rest, hsp⟩ := splitOn_head_char ht0 (hth_sp c0 ht0)
        have hk : k = c0 :: w' := by
          rw [hsp, fitWords] at hkept
          by_cases hb : (c0 :: w').length ≤ 320 - (['…'] : PyStr).length
          · rw [if_pos hb] at hkept
            injection hkept with h1 _
            exact h1.symm
          · rw [if_neg hb] at hkept
            cases hkept
        rw [List.head?_append, joinWords_head k ks hkne, hk, List.head?_cons] at hc
        injection hc with hc1
        rw [← hc1]
        exact hth c0 ht0
      · have hjp := joinWords_plain (k :: ks) fun u hu => (hkprops u hu).2
        rw [onlyPlainSpaces] at hjp ⊢
        rw [List.all_append, hjp]
        decide
      · apply noDouble_append
        · exact joinWords_noDouble (k :: ks) hkprops
        · decide
        · intro x y hx hy hxy
          injection hy with hy1
          obtain ⟨_, hys⟩ := hxy
          rw [← hy1] at hys
          exact absurd hys (by decide)

theorem cleanBulletLine_props {line : PyStr} (hne : cleanBulletLine line ≠ []) :
    (∀ c, (cleanBulletLine line).head? = some c → isBulletMarker c = false) ∧
    onlyPlainSpaces (cleanBulletLine line) = true ∧
    noDoubleSpace (cleanBulletLine line) = true ∧
    (∀ c, (cleanBulletLine line).getLast? = some c → pyIsSpace c = false) := by
  rw [cleanBulletLine] at hne ⊢
  have hune : pyStrip (line.dropWhile isBulletMarker) ≠ [] := by
    intro h0
    rw [h0] at hne
    exact hne rfl
  obtain ⟨a, u', hu⟩ : ∃ a u',
      pyStrip (line.dropWhile isBulletMarker) = a :: u' := by
    cases hc : pyStrip (line.dropWhile isBulletMarker) with
    | nil => exact absurd hc hune
    | cons a u' => exact ⟨a, u', rfl⟩
  have hahead : (pyStrip (line.dropWhile isBulletMarker)).head? = some a := by
    rw [hu]
    rfl
  have ha_ws : pyIsSpace a = false := pyStrip_head_not_space hahead
  have ha_marker : isBulletMarker a = false := by
    have hpre : (pyStrip (line.dropWhile isBulletMarker)) <+:
        line.dropWhile isBulletMarker := by
      rw [pyStrip]
      have hdw : (line.dropWhile isBulletMarker).dropWhile pyIsSpace =
          line.dropWhile isBulletMarker := by
        apply dropWhile_eq_self_of_head
        intro x hx
        have hxm := dropWhile_head_not hx
        cases hb : pyIsSpace x
        · rfl
        · rw [isBulletMarker, hb] at hxm
          simp at hxm
      rw [hdw]
      obtain ⟨pre, hpre2⟩ :=
        List.dropWhile_suffix (l := (line.dropWhile isBulletMarker).reverse) pyIsSpace
      refine ⟨pre.reverse, ?_⟩
      have h3 := congrArg List.reverse hpre2
      rw [List.reverse_append, List.reverse_reverse] at h3
      exact h3
    obtain ⟨suf, hsuf⟩ := hpre
    rw [hu] at hsuf
    have hx : (line.dropWhile isBulletMarker).head? = some a := by
      rw [← hsuf]
      rfl
    exact dropWhile_head_not hx
  have hchead : (collapseWs (pyStrip (line.dropWhile isBulletMarker))).head? =
      some a := collapseWsAux_head_pres _ false a hahead ha_ws
  refine ⟨?_, collapseWsAux_plain _ false, collapseWsAux_noDouble _ false, ?_⟩
  · intro c hc
    rw [hchead] at hc
    injection hc with hc1
    rw [← hc1]
    exact ha_marker
  · intro c hc
    obtain ⟨b, hb⟩ : ∃ b,
        (pyStrip (line.dropWhile isBulletMarker)).getLast? = some b := by
      cases hgl : (pyStrip (line.dropWhile isBulletMarker)).getLast? with
      | none => exact absurd (List.getLast?_eq_none_iff.1 hgl) hune
      | some b => exact ⟨b, rfl⟩
    have hb_ws : pyIsSpace b = false := pyStrip_getLast_not_space hb
    have hcl : (collapseWs (pyStrip (line.dropWhile isBulletMarker))).getLast? =
        some b := collapseWsAux_getLast _ false b hb hb_ws
    rw [hcl] at hc
    injection hc with hc1
    rw [← hc1]
    exact hb_ws

theorem bullets_foldl_mem : ∀ (ls : List PyStr) (acc : List PyStr) (b : PyStr),
    (b ∈ ls.foldl bulletStep acc) ↔
    (b ∈ acc ∨ ∃ line ∈ ls, cleanBulletLine line ≠ [] ∧
      b = pyShorten 320 ['…'] (cleanBulletLine line)) := by
  intro ls
  induction ls with
  | nil =>
    intro acc b
    simp
  | cons l ls' ih =>
    intro acc b
    rw [List.foldl_cons]
    by_cases ht : cleanBulletLine l = []
    · have hstep : bulletStep acc l = acc := by
        rw [bulletStep, if_pos ht]
      rw [hstep, ih]
      constructor
      · rintro (h | ⟨line, hl, h2, h3⟩)
        · exact Or.inl h
        · exact Or.inr ⟨line, List.mem_cons_of_mem _ hl, h2, h3⟩
      · rintro (h | ⟨line, hl, h2, h3⟩)
        · exact Or.inl h
        · rcases List.mem_cons.1 hl with rfl | hl
          · exact absurd ht h2
          · exact Or.inr ⟨line, hl, h2, h3⟩
    · have hstep : bulletStep acc l =
          acc ++ [pyShorten 320 ['…'] (cleanBulletLine l)] := by
        rw [bulletStep, if_neg ht]
      rw [hstep, ih]
      constructor
      · rintro (h | ⟨line, hl, h2, h3⟩)
        · rcases List.mem_append.1 h with h1 | h1
          · exact Or.inl h1
          · refine Or.inr ⟨l, List.mem_cons_self _ _, ht, ?_⟩
            simpa using h1
        · exact Or.inr ⟨line, List.mem_cons_of_mem _ hl, h2, h3⟩
      · rintro (h | ⟨line, hl, h2, h3⟩)
        · exact Or.inl (List.mem_append_left _ h)
        · rcases List.mem_cons.1 hl with rfl | hl
          · exact Or.inl (List.mem_append_right _ (by simp [h3]))
          · exact Or.inr ⟨line, hl, h2, h3⟩

theorem parse_trivia_bullets_mem {content b : PyStr} :
    b ∈ parse_trivia_bullets content ↔
    ∃ line ∈ pyLines (pyStrip content), cleanBulletLine line ≠ [] ∧
      b = pyShorten 320 ['…'] (cleanBulletLine line) := by
  rw [parse_trivia_bullets, bullets_foldl_mem]
  simp

/-- C7: every trivia bullet produced from a model response is non-empty,
at most 320 characters long, does not start with a bullet-marker
character (dash, asterisk, digit, dot, closing parenthesis, whitespace),
and has its whitespace collapsed: every whitespace character in it is a
plain space and no two spaces are adjacent; empty lines contribute no
bullet at all. -/
theorem C7_bullet_shape (content : PyStr) :
    ∀ b ∈ parse_trivia_bullets content,
      b ≠ [] ∧ b.length ≤ 320 ∧
      (∀ c, b.head? = some c → isBulletMarker c = false) ∧
      onlyPlainSpaces b = true ∧ noDoubleSpace b = true := by
  intro b hb
  obtain ⟨line, _, hne, rfl⟩ := parse_trivia_bullets_mem.1 hb
  obtain ⟨hhead, hplain, hdouble, hlast⟩ := cleanBulletLine_props hne
  exact pyShorten_props hne hhead hplain hdouble hlast

/-- C7 witness: a concrete model response produces a bullet satisfying
the shape invariants. -/
theorem C7_bullet_shape_witness :
    ("Fact one".toList : PyStr) ≠ [] ∧
    ("Fact one".toList : PyStr).length ≤ 320 ∧
    (∀ c, ("Fact one".toList : PyStr).head? = some c →
      isBulletMarker c = false) ∧
    onlyPlainSpaces "Fact one".toList = true ∧
    noDoubleSpace "Fact one".toList = true :=
  C7_bullet_shape "- Fact  one\n\n* ".toList "Fact one".toList (by decide)

end VibePodcast
